import Mathlib

/-!
Shallow embedding of `src/single-linked-list/single-linked-list.h`:
a C++ singly linked list (`SingleLinkedList<Type>`) with a sentinel head
node embedded in the list object, raw owning `Node*` links, a separate
`size_` counter, iterator-based `InsertAfter`/`EraseAfter`, double-reversal
bulk construction (`CopyList`), copy-and-swap assignment, and free
comparison operators implemented via `std::equal` and
`std::lexicographical_compare`.

The embedding makes the heap explicit: nodes live at natural-number
addresses, `new` allocates at the next fresh address, `delete` removes the
binding.  Undefined behaviour of the C++ code (dereferencing a null or
dangling pointer, writing through a freed pointer, a non-terminating
traversal of a cyclic chain, a failed `assert`) is modelled by returning
`none`.  The sentinel `head_` is embedded in the list object, not in the
heap; an iterator is either null (`end()`), a pointer to the receiver's
sentinel (`before_begin()`), or a pointer to a heap node.
-/

namespace SLL


/-- The C++ `Node` struct: one value and the raw pointer to the next node
(`nullptr` = `none`). -/
structure Node (α : Type) where
  value : α
  next_node : Option Nat
deriving DecidableEq, Repr

/-- Pointwise update of a heap memory function. -/
def updMem {α : Type} (m : Nat → Option (Node α)) (a : Nat)
    (v : Option (Node α)) : Nat → Option (Node α) :=
  fun x => if x = a then v else m x

/-- The heap: a partial map from addresses to nodes, together with the next
address `new` will hand out. -/
structure Heap (α : Type) where
  mem : Nat → Option (Node α)
  fresh : Nat

/-- The empty heap. -/
def Heap.emptyHeap (α : Type) : Heap α := ⟨fun _ => none, 0⟩

/-- `new Node(...)`: bind the node at the fresh address and return it. -/
def Heap.alloc {α : Type} (h : Heap α) (n : Node α) : Heap α × Nat :=
  (⟨updMem h.mem h.fresh (some n), h.fresh + 1⟩, h.fresh)

/-- Write through a node pointer.  Writing through a pointer that is not
currently allocated is undefined behaviour (`none`). -/
def Heap.store {α : Type} (h : Heap α) (a : Nat) (n : Node α) :
    Option (Heap α) :=
  match h.mem a with
  | none => none
  | some _ => some ⟨updMem h.mem a (some n), h.fresh⟩

/-- `delete` a node.  Every `delete` in the source is preceded by a
successful read of the same pointer, so the model frees unconditionally. -/
def Heap.free {α : Type} (h : Heap α) (a : Nat) : Heap α :=
  ⟨updMem h.mem a none, h.fresh⟩

/-- Heap well-formedness: addresses at or above `fresh` are unallocated. -/
def Heap.WF {α : Type} (h : Heap α) : Prop :=
  ∀ a, h.fresh ≤ a → h.mem a = none

/-- The list object: the sentinel's `next_node` field (`head_.next_node`)
and the element counter `size_`.  (`head_` holds no value; only its link
matters, so the model keeps just that link.) -/
structure SingleLinkedList where
  head_next : Option Nat
  size_ : Nat
deriving DecidableEq, Repr

/-- `SingleLinkedList()`: default-constructed empty list (`head_.next_node
== nullptr`, `size_ == 0`). -/
def SingleLinkedList.defaultList : SingleLinkedList := ⟨none, 0⟩

/-- A `BasicIterator`: its `node_` pointer is null (`end()`), the address
of the receiver list's embedded sentinel `head_` (`before_begin()`), or
the address of a heap node. -/
inductive Iter where
  | null
  | headPtr
  | node (a : Nat)
deriving DecidableEq, Repr

/-- `Iterator{p}` for a raw `Node*` `p` that is either null or a heap
node. -/
def iterOf : Option Nat → Iter
  | none => Iter.null
  | some a => Iter.node a

namespace SingleLinkedList

/-- `begin()`: `Iterator{head_.next_node}`. -/
def begin (st : SingleLinkedList) : Iter := iterOf st.head_next

/-- `end()`: `Iterator{nullptr}`. -/
def endIter (_ : SingleLinkedList) : Iter := Iter.null

/-- `before_begin()`: `Iterator{&head_}`, the sentinel position. -/
def before_begin (_ : SingleLinkedList) : Iter := Iter.headPtr

/-- `GetSize()`. -/
def GetSize (st : SingleLinkedList) : Nat := st.size_

/-- `IsEmpty()`: `size_ == 0`. -/
def IsEmpty (st : SingleLinkedList) : Bool := st.size_ == 0

/-- `PushFront(value)`: allocate `new Node(value, head_.next_node)`, make
it the first node, increment `size_`. -/
def PushFront {α : Type} (st : SingleLinkedList) (h : Heap α) (value : α) :
    SingleLinkedList × Heap α :=
  let p := h.alloc ⟨value, st.head_next⟩
  (⟨some p.2, st.size_ + 1⟩, p.1)

/-- `swap(rhs)`: exchange `head_.next_node` and `size_` of the two list
objects; the heap is untouched.  Returns (new `*this`, new `rhs`). -/
def swap (st rhs : SingleLinkedList) : SingleLinkedList × SingleLinkedList :=
  (⟨rhs.head_next, rhs.size_⟩, ⟨st.head_next, st.size_⟩)

end SingleLinkedList

/-- The loop of `Clear()`: repeatedly read the first node's `next_node`,
`delete` the first node, and relink, until `head_.next_node` is null.  The
C++ loop is unbounded; fuel bounds the model (a chain that does not reach
null within `fuel` steps means a cyclic or dangling chain, i.e. undefined
behaviour, `none`). -/
def clearLoop {α : Type} : Nat → Option Nat → Heap α → Option (Heap α)
  | _, none, h => some h
  | 0, some _, _ => none
  | fuel + 1, some a, h =>
    match h.mem a with
    | none => none
    | some n => clearLoop fuel n.next_node (h.free a)

/-- `Clear()`: free the whole chain, reset `head_.next_node` and
`size_`. -/
def Clear {α : Type} (st : SingleLinkedList) (h : Heap α) :
    Option (SingleLinkedList × Heap α) :=
  (clearLoop h.fresh st.head_next h).map (fun h2 => (⟨none, 0⟩, h2))

/-- `PopFront()`: `assert(size_ != 0)`, then unlink, relink the sentinel
to the second node, decrement `size_`, `delete` the old first node. -/
def PopFront {α : Type} (st : SingleLinkedList) (h : Heap α) :
    Option (SingleLinkedList × Heap α) :=
  if st.size_ = 0 then none
  else
    match st.head_next with
    | none => none
    | some a =>
      match h.mem a with
      | none => none
      | some n => some (⟨n.next_node, st.size_ - 1⟩, h.free a)

/-- `InsertAfter(pos, value)`: allocate `new Node(value,
pos.node_->next_node)`, link it after `pos`, increment `size_`, and return
`Iterator{pos.node_->next_node}` (the new node).  `pos` null is undefined
behaviour. -/
def InsertAfter {α : Type} (st : SingleLinkedList) (h : Heap α)
    (pos : Iter) (value : α) :
    Option (SingleLinkedList × Heap α × Iter) :=
  match pos with
  | Iter.null => none
  | Iter.headPtr =>
    let p := h.alloc ⟨value, st.head_next⟩
    some (⟨some p.2, st.size_ + 1⟩, p.1, Iter.node p.2)
  | Iter.node q =>
    match h.mem q with
    | none => none
    | some nq =>
      let p := h.alloc ⟨value, nq.next_node⟩
      match p.1.store q ⟨nq.value, some p.2⟩ with
      | none => none
      | some h3 => some (⟨st.head_next, st.size_ + 1⟩, h3, Iter.node p.2)

/-- `EraseAfter(pos)`: read `tmp = pos.node_->next_node->next_node`,
`delete pos.node_->next_node`, relink `pos.node_->next_node = tmp`,
decrement `size_`, return `Iterator{pos.node_->next_node}`.  (On a C++
`size_t`, `--size_` at zero would wrap; that state is unreachable through
the public interface, and the claims below always carry the size
invariant, so the model uses truncated subtraction.) -/
def EraseAfter {α : Type} (st : SingleLinkedList) (h : Heap α)
    (pos : Iter) : Option (SingleLinkedList × Heap α × Iter) :=
  match pos with
  | Iter.null => none
  | Iter.headPtr =>
    match st.head_next with
    | none => none
    | some b =>
      match h.mem b with
      | none => none
      | some nb =>
        some (⟨nb.next_node, st.size_ - 1⟩, h.free b, iterOf nb.next_node)
  | Iter.node q =>
    match h.mem q with
    | none => none
    | some nq =>
      match nq.next_node with
      | none => none
      | some b =>
        match h.mem b with
        | none => none
        | some nb =>
          match (h.free b).store q ⟨nq.value, nb.next_node⟩ with
          | none => none
          | some h2 =>
            some (⟨st.head_next, st.size_ - 1⟩, h2, iterOf nb.next_node)

/-- A front-to-back iteration `for (auto it = Iterator{o}; it != end();
++it)` collecting `*it`.  Fueled like `clearLoop`. -/
def traverseVals {α : Type} (h : Heap α) : Nat → Option Nat → Option (List α)
  | _, none => some []
  | 0, some _ => none
  | fuel + 1, some a =>
    match h.mem a with
    | none => none
    | some n => (traverseVals h fuel n.next_node).map (fun vs => n.value :: vs)

/-- The first loop of `CopyList`: push every element of the source
sequence to the front of `tmp1`, in order. -/
def pushAll {α : Type} (st : SingleLinkedList) (h : Heap α) :
    List α → SingleLinkedList × Heap α
  | [] => (st, h)
  | v :: vs =>
    let p := st.PushFront h v
    pushAll p.1 p.2 vs

/-- `CopyList(begin, end)` on receiver `st`, where `src` is the value
sequence the iterator range `[begin, end)` visits in order: push all of
`src` to the front of `tmp1`; traverse `tmp1` pushing each value to the
front of `tmp2` (the traversal only reads `tmp1`'s nodes and the pushes
only allocate fresh ones, so collecting the values first is equivalent to
the interleaved loop); `swap(tmp2)`; then the destructors of `tmp2` (now
holding the receiver's old chain) and `tmp1` run `Clear` at scope exit. -/
def CopyList {α : Type} (st : SingleLinkedList) (h : Heap α)
    (src : List α) : Option (SingleLinkedList × Heap α) :=
  let p1 := pushAll ⟨none, 0⟩ h src
  match traverseVals p1.2 p1.2.fresh p1.1.head_next with
  | none => none
  | some tmp1Vals =>
    let p2 := pushAll ⟨none, 0⟩ p1.2 tmp1Vals
    let sw := st.swap p2.1
    match clearLoop p2.2.fresh sw.2.head_next p2.2 with
    | none => none
    | some h3 =>
      match clearLoop h3.fresh p1.1.head_next h3 with
      | none => none
      | some h4 => some (sw.1, h4)

/-- `SingleLinkedList(std::initializer_list<Type>)`: `CopyList` on a
default-constructed receiver, the source sequence being the initializer
list. -/
def ofList {α : Type} (h : Heap α) (src : List α) :
    Option (SingleLinkedList × Heap α) :=
  CopyList ⟨none, 0⟩ h src

/-- `SingleLinkedList(const SingleLinkedList& other)`: the receiver starts
default-constructed (the `assert` checks exactly this); `CopyList` over
`other.begin() .. other.end()`, i.e. over the values of `other`'s
chain. -/
def copyFrom {α : Type} (h : Heap α) (other : SingleLinkedList) :
    Option (SingleLinkedList × Heap α) :=
  match traverseVals h h.fresh other.head_next with
  | none => none
  | some vs => CopyList ⟨none, 0⟩ h vs

/-- `operator=(rhs)`: if `this != &rhs` (`sameObject` is the pointer
comparison), copy-construct `tmp` from `rhs`, `swap(tmp)`, and let `tmp`'s
destructor free the receiver's old chain; otherwise do nothing. -/
def assign {α : Type} (st : SingleLinkedList) (h : Heap α)
    (rhs : SingleLinkedList) (sameObject : Bool) :
    Option (SingleLinkedList × Heap α) :=
  if sameObject then some (st, h)
  else
    match copyFrom h rhs with
    | none => none
    | some th =>
      let sw := st.swap th.1
      match clearLoop th.2.fresh sw.2.head_next th.2 with
      | none => none
      | some h3 => some (sw.1, h3)

/-- The free `swap(lhs, rhs)`: calls `rhs.swap(lhs)`. -/
def swapFree (lhs rhs : SingleLinkedList) :
    SingleLinkedList × SingleLinkedList :=
  let p := rhs.swap lhs
  (p.2, p.1)

/-- The loop of `std::equal(f1, l1, f2, l2)` over the two value
sequences: equal lengths and elementwise `==`. -/
def stdEqual {α : Type} [DecidableEq α] : List α → List α → Bool
  | [], [] => true
  | _ :: _, [] => false
  | [], _ :: _ => false
  | a :: as, b :: bs => decide (a = b) && stdEqual as bs

/-- The loop of `std::lexicographical_compare(f1, l1, f2, l2)` over the
two value sequences. -/
def lexComp {α : Type} [LinearOrder α] : List α → List α → Bool
  | [], [] => false
  | [], _ :: _ => true
  | _ :: _, [] => false
  | a :: as, b :: bs =>
    if a < b then true else if b < a then false else lexComp as bs

/-- `operator==(lhs, rhs)`: `std::equal` over the two iterations. -/
def listEq {α : Type} [DecidableEq α] (h : Heap α)
    (lhs rhs : SingleLinkedList) : Option Bool :=
  match traverseVals h h.fresh lhs.head_next,
        traverseVals h h.fresh rhs.head_next with
  | some v1, some v2 => some (stdEqual v1 v2)
  | _, _ => none

/-- `operator!=(lhs, rhs)`: `!(lhs == rhs)`. -/
def listNe {α : Type} [DecidableEq α] (h : Heap α)
    (lhs rhs : SingleLinkedList) : Option Bool :=
  (listEq h lhs rhs).map (fun b => !b)

/-- `operator<(lhs, rhs)`: `std::lexicographical_compare` over the two
iterations. -/
def listLt {α : Type} [LinearOrder α] (h : Heap α)
    (lhs rhs : SingleLinkedList) : Option Bool :=
  match traverseVals h h.fresh lhs.head_next,
        traverseVals h h.fresh rhs.head_next with
  | some v1, some v2 => some (lexComp v1 v2)
  | _, _ => none

/-- `operator>(lhs, rhs)`: `rhs < lhs`. -/
def listGt {α : Type} [LinearOrder α] (h : Heap α)
    (lhs rhs : SingleLinkedList) : Option Bool :=
  listLt h rhs lhs

/-- `operator<=(lhs, rhs)`: `!(rhs < lhs)`. -/
def listLe {α : Type} [LinearOrder α] (h : Heap α)
    (lhs rhs : SingleLinkedList) : Option Bool :=
  (listLt h rhs lhs).map (fun b => !b)

/-- `operator>=(lhs, rhs)`: `!(lhs < rhs)`. -/
def listGe {α : Type} [LinearOrder α] (h : Heap α)
    (lhs rhs : SingleLinkedList) : Option Bool :=
  (listLt h lhs rhs).map (fun b => !b)

/-! ## Representation predicates -/

/-- `ListRep h o as vs`: starting from the raw pointer `o`, the heap `h`
contains a null-terminated chain of nodes at addresses `as` holding values
`vs`. -/
inductive ListRep {α : Type} (h : Heap α) :
    Option Nat → List Nat → List α → Prop where
  | nil : ListRep h none [] []
  | cons {a : Nat} {nxt : Option Nat} {v : α} {as : List Nat}
      {vs : List α} :
      h.mem a = some ⟨v, nxt⟩ → ListRep h nxt as vs →
      ListRep h (some a) (a :: as) (v :: vs)

/-- `SegRep h o as vs o2`: from pointer `o`, the heap contains a chain
segment at addresses `as` with values `vs`, whose last link is `o2`. -/
inductive SegRep {α : Type} (h : Heap α) :
    Option Nat → List Nat → List α → Option Nat → Prop where
  | nil {o : Option Nat} : SegRep h o [] [] o
  | cons {a : Nat} {nxt : Option Nat} {v : α} {as : List Nat}
      {vs : List α} {o2 : Option Nat} :
      h.mem a = some ⟨v, nxt⟩ → SegRep h nxt as vs o2 →
      SegRep h (some a) (a :: as) (v :: vs) o2

/-- The structural invariant of the container: the chain from the sentinel
is a finite null-terminated chain and `size_` counts exactly its nodes. -/
def Valid {α : Type} (st : SingleLinkedList) (h : Heap α) : Prop :=
  ∃ as vs, ListRep h st.head_next as vs ∧ st.size_ = as.length

/-! ## Basic heap lemmas -/

variable {α : Type}

lemma updMem_self (m : Nat → Option (Node α)) (a : Nat)
    (v : Option (Node α)) : updMem m a v a = v := by
  simp [updMem]

lemma updMem_ne (m : Nat → Option (Node α)) {a x : Nat}
    (v : Option (Node α)) (hx : x ≠ a) : updMem m a v x = m x := by
  simp [updMem, hx]

lemma Heap.alloc_mem_self (h : Heap α) (n : Node α) :
    (h.alloc n).1.mem (h.alloc n).2 = some n := by
  simp [Heap.alloc, updMem]

lemma Heap.alloc_mem_ne (h : Heap α) (n : Node α) {a : Nat}
    (ha : a ≠ h.fresh) : (h.alloc n).1.mem a = h.mem a := by
  simp [Heap.alloc, updMem, ha]

lemma Heap.alloc_fresh (h : Heap α) (n : Node α) :
    (h.alloc n).1.fresh = h.fresh + 1 := rfl

lemma Heap.alloc_addr (h : Heap α) (n : Node α) :
    (h.alloc n).2 = h.fresh := rfl

lemma Heap.WF_alloc {h : Heap α} (hw : h.WF) (n : Node α) :
    (h.alloc n).1.WF := by
  intro a ha
  rw [Heap.alloc_fresh] at ha
  have hne : a ≠ h.fresh := by omega
  rw [@Heap.alloc_mem_ne α h n a hne]
  exact hw a (by omega)

lemma Heap.free_mem_self (h : Heap α) (a : Nat) :
    (h.free a).mem a = none := by
  simp [Heap.free, updMem]

lemma Heap.free_mem_ne (h : Heap α) {a x : Nat} (hx : x ≠ a) :
    (h.free a).mem x = h.mem x := by
  simp [Heap.free, updMem, hx]

lemma Heap.free_fresh (h : Heap α) (a : Nat) :
    (h.free a).fresh = h.fresh := rfl

lemma Heap.store_of_mem {h : Heap α} {a : Nat} {n0 : Node α}
    (hm : h.mem a = some n0) (n : Node α) :
    h.store a n = some ⟨updMem h.mem a (some n), h.fresh⟩ := by
  simp [Heap.store, hm]

lemma Heap.WF_of_mem_lt {h : Heap α} (hw : h.WF) {a : Nat} {n : Node α}
    (hm : h.mem a = some n) : a < h.fresh := by
  by_contra hlt
  push_neg at hlt
  rw [hw a hlt] at hm
  cases hm

/-! ## Basic `ListRep` lemmas -/

lemma ListRep.mem_alloc {h : Heap α} {o : Option Nat} {as : List Nat}
    {vs : List α} (hr : ListRep h o as vs) :
    ∀ a ∈ as, ∃ n, h.mem a = some n := by
  induction hr with
  | nil => intro a ha; exact absurd ha (List.not_mem_nil a)
  | cons hm htail ih =>
    intro x hx
    rcases List.mem_cons.mp hx with hx | hx
    · exact ⟨_, hx ▸ hm⟩
    · exact ih x hx

lemma ListRep.lt_fresh {h : Heap α} {o : Option Nat} {as : List Nat}
    {vs : List α} (hw : h.WF) (hr : ListRep h o as vs) :
    ∀ a ∈ as, a < h.fresh := by
  intro a ha
  rcases hr.mem_alloc a ha with ⟨n, hn⟩
  exact Heap.WF_of_mem_lt hw hn

lemma ListRep.frame {h h2 : Heap α} {o : Option Nat} {as : List Nat}
    {vs : List α} (hr : ListRep h o as vs)
    (hagree : ∀ a ∈ as, h2.mem a = h.mem a) : ListRep h2 o as vs := by
  induction hr with
  | nil => exact ListRep.nil
  | cons hm htail ih =>
    refine ListRep.cons ?_ (ih ?_)
    · rw [hagree _ (List.mem_cons_self _ _)]; exact hm
    · intro a ha; exact hagree a (List.mem_cons_of_mem _ ha)

lemma ListRep.functional {h : Heap α} {o : Option Nat}
    {as as2 : List Nat} {vs vs2 : List α} (h1 : ListRep h o as vs)
    (h2 : ListRep h o as2 vs2) : as = as2 ∧ vs = vs2 := by
  induction h1 generalizing as2 vs2 with
  | nil => cases h2; exact ⟨rfl, rfl⟩
  | @cons a nxt v as vs hm htail ih =>
    cases h2 with
    | @cons _ nxt2 v2 as2t vs2t hm2 htail2 =>
      rw [hm] at hm2
      injection hm2 with hn
      injection hn with hv hnxt
      subst hv; subst hnxt
      obtain ⟨ha, hv⟩ := ih htail2
      exact ⟨by rw [ha], by rw [hv]⟩

lemma ListRep.chain_of_mem {h : Heap α} {o : Option Nat} {as : List Nat}
    {vs : List α} (hr : ListRep h o as vs) :
    ∀ a ∈ as, ∃ as2 vs2, ListRep h (some a) as2 vs2 ∧
      as2.length ≤ as.length := by
  induction hr with
  | nil => intro a ha; exact absurd ha (List.not_mem_nil a)
  | @cons a nxt v as vs hm htail ih =>
    intro x hx
    rcases List.mem_cons.mp hx with rfl | hx
    · exact ⟨_, _, ListRep.cons hm htail, le_refl _⟩
    · rcases ih x hx with ⟨as2, vs2, hr2, hlen⟩
      exact ⟨as2, vs2, hr2, le_trans hlen (Nat.le_succ _)⟩

lemma ListRep.nodup {h : Heap α} {o : Option Nat} {as : List Nat}
    {vs : List α} (hr : ListRep h o as vs) : as.Nodup := by
  induction hr with
  | nil => exact List.nodup_nil
  | @cons a nxt v as vs hm htail ih =>
    refine List.nodup_cons.mpr ⟨?_, ih⟩
    intro hmem
    rcases htail.chain_of_mem a hmem with ⟨as2, vs2, hr2, hlen⟩
    obtain ⟨ha, _⟩ := (ListRep.cons hm htail).functional hr2
    have : (a :: as).length ≤ as.length := ha ▸ hlen
    simp at this

lemma ListRep.length_eq {h : Heap α} {o : Option Nat} {as : List Nat}
    {vs : List α} (hr : ListRep h o as vs) : as.length = vs.length := by
  induction hr with
  | nil => rfl
  | cons hm htail ih => simpa using ih

lemma ListRep.length_le_fresh {h : Heap α} {o : Option Nat}
    {as : List Nat} {vs : List α} (hw : h.WF) (hr : ListRep h o as vs) :
    as.length ≤ h.fresh := by
  classical
  have hd : as.Nodup := hr.nodup
  have hsub : as.toFinset ⊆ Finset.range h.fresh := by
    intro a ha
    rw [List.mem_toFinset] at ha
    exact Finset.mem_range.mpr (hr.lt_fresh hw a ha)
  calc as.length = as.toFinset.card := (List.toFinset_card_of_nodup hd).symm
    _ ≤ (Finset.range h.fresh).card := Finset.card_le_card hsub
    _ = h.fresh := Finset.card_range _

lemma ListRep.allocRep {h : Heap α} {o : Option Nat} {as : List Nat}
    {vs : List α} (hw : h.WF) (n : Node α) (hr : ListRep h o as vs) :
    ListRep (h.alloc n).1 o as vs :=
  hr.frame (fun a ha =>
    Heap.alloc_mem_ne h n (Nat.ne_of_lt (hr.lt_fresh hw a ha)))

lemma ListRep.freeRep {h : Heap α} {o : Option Nat} {as : List Nat}
    {vs : List α} {b : Nat} (hr : ListRep h o as vs) (hb : b ∉ as) :
    ListRep (h.free b) o as vs :=
  hr.frame (fun a ha =>
    Heap.free_mem_ne h (fun hab => hb (hab ▸ ha)))

/-! ## Segment lemmas -/

lemma SegRep.seg_frame {h h2 : Heap α} {o mid : Option Nat} {as : List Nat}
    {vs : List α} (hseg : SegRep h o as vs mid)
    (hagree : ∀ a ∈ as, h2.mem a = h.mem a) : SegRep h2 o as vs mid := by
  induction hseg with
  | nil => exact SegRep.nil
  | cons hm htail ih =>
    refine SegRep.cons ?_ (ih ?_)
    · rw [hagree _ (List.mem_cons_self _ _)]; exact hm
    · intro a ha; exact hagree a (List.mem_cons_of_mem _ ha)

lemma SegRep.append_rep {h : Heap α} {o mid : Option Nat}
    {as1 as2 : List Nat} {vs1 vs2 : List α}
    (hseg : SegRep h o as1 vs1 mid) (hr : ListRep h mid as2 vs2) :
    ListRep h o (as1 ++ as2) (vs1 ++ vs2) := by
  induction hseg with
  | nil => simpa using hr
  | cons hm htail ih => exact ListRep.cons hm (ih hr)

lemma rep_split {h : Heap α} :
    ∀ (as1 : List Nat) (vs1 : List α) {o : Option Nat} {as2 : List Nat}
      {vs2 : List α},
      ListRep h o (as1 ++ as2) (vs1 ++ vs2) → as1.length = vs1.length →
      ∃ mid, SegRep h o as1 vs1 mid ∧ ListRep h mid as2 vs2 := by
  intro as1
  induction as1 with
  | nil =>
    intro vs1 o as2 vs2 hr hlen
    have hv : vs1 = [] := List.length_eq_zero.mp hlen.symm
    subst hv
    exact ⟨o, SegRep.nil, by simpa using hr⟩
  | cons a as1t ih =>
    intro vs1 o as2 vs2 hr hlen
    cases vs1 with
    | nil => simp at hlen
    | cons v vs1t =>
      rw [List.cons_append, List.cons_append] at hr
      cases hr with
      | cons hm htail =>
        obtain ⟨mid, hseg, hr2⟩ := ih vs1t htail (by simpa using hlen)
        exact ⟨mid, SegRep.cons hm hseg, hr2⟩

lemma ListRep.mem_decomp {h : Heap α} {o : Option Nat} {as : List Nat}
    {vs : List α} (hr : ListRep h o as vs) {p : Nat} (hp : p ∈ as) :
    ∃ as1 as2 vs1 x vs2, as = as1 ++ p :: as2 ∧ vs = vs1 ++ x :: vs2 ∧
      as1.length = vs1.length := by
  induction hr with
  | nil => exact absurd hp (List.not_mem_nil p)
  | @cons a nxt v ast vst hm htail ih =>
    rcases List.mem_cons.mp hp with rfl | hp2
    · exact ⟨[], ast, [], v, vst, rfl, rfl, rfl⟩
    · obtain ⟨as1, as2, vs1, x, vs2, ha, hv, hl⟩ := ih hp2
      exact ⟨a :: as1, as2, v :: vs1, x, vs2, by simp [ha], by simp [hv],
        by simpa using hl⟩

/-! ## Traversal lemmas -/

lemma traverseVals_none (h : Heap α) (fuel : Nat) :
    traverseVals h fuel none = some [] := by
  cases fuel <;> rfl

lemma traverseVals_of_rep {h : Heap α} {o : Option Nat} {as : List Nat}
    {vs : List α} (hr : ListRep h o as vs) :
    ∀ fuel, as.length ≤ fuel → traverseVals h fuel o = some vs := by
  induction hr with
  | nil => intro fuel _; exact traverseVals_none h fuel
  | @cons a nxt v ast vst hm htail ih =>
    intro fuel hlen
    simp only [List.length_cons] at hlen
    cases fuel with
    | zero => omega
    | succ f =>
      have hf : ast.length ≤ f := by omega
      show traverseVals h (f + 1) (some a) = some (v :: vst)
      simp [traverseVals, hm, ih f hf]

/-! ## `clearLoop` correctness -/

lemma clearLoop_none (h : Heap α) (fuel : Nat) :
    clearLoop fuel none h = some h := by
  cases fuel <;> rfl

lemma clearLoop_of_rep {α : Type} :
    ∀ (as : List Nat) (h : Heap α) (o : Option Nat) (vs : List α)
      (fuel : Nat),
      ListRep h o as vs → as.length ≤ fuel →
      ∃ h2, clearLoop fuel o h = some h2 ∧ h2.fresh = h.fresh ∧
        (∀ a ∈ as, h2.mem a = none) ∧
        (∀ a, a ∉ as → h2.mem a = h.mem a) := by
  intro as
  induction as with
  | nil =>
    intro h o vs fuel hr _
    cases hr
    exact ⟨h, clearLoop_none h fuel, rfl, by simp, fun a _ => rfl⟩
  | cons a rest ih =>
    intro h o vs fuel hr hlen
    simp only [List.length_cons] at hlen
    cases hr with
    | @cons _ nxt v _ vst hm htail =>
      cases fuel with
      | zero => omega
      | succ f =>
        have hnotin : a ∉ rest :=
          (List.nodup_cons.mp (ListRep.cons hm htail).nodup).1
        have htail2 : ListRep (h.free a) nxt rest vst := htail.freeRep hnotin
        obtain ⟨h2, hcl, hf, hin, hout⟩ :=
          ih (h.free a) nxt vst f htail2 (by omega)
        refine ⟨h2, ?_, ?_, ?_, ?_⟩
        · show clearLoop (f + 1) (some a) h = some h2
          simpa [clearLoop, hm] using hcl
        · rw [hf]; rfl
        · intro x hx
          rcases List.mem_cons.mp hx with rfl | hx2
          · rw [hout x hnotin]; exact Heap.free_mem_self h x
          · exact hin x hx2
        · intro x hx
          have hxa : x ≠ a := fun hh => hx (hh ▸ List.mem_cons_self a rest)
          have hxr : x ∉ rest := fun hh => hx (List.mem_cons_of_mem a hh)
          rw [hout x hxr]
          exact Heap.free_mem_ne h hxa

/-! ## Operation-level representation lemmas -/

lemma ListRep.cons_inv {h : Heap α} {o : Option Nat} {a : Nat}
    {as : List Nat} {v : α} {vs : List α}
    (hr : ListRep h o (a :: as) (v :: vs)) :
    o = some a ∧ ∃ nxt, h.mem a = some ⟨v, nxt⟩ ∧ ListRep h nxt as vs := by
  cases hr with
  | cons hm htail => exact ⟨rfl, _, hm, htail⟩

lemma ListRep.head_none {h : Heap α} {o : Option Nat} {as : List Nat}
    {vs : List α} (hr : ListRep h o as vs) :
    (as = [] → o = none) ∧ (∀ c cs, as = c :: cs → o = some c) := by
  cases hr with
  | nil => exact ⟨fun _ => rfl, fun c cs hcc => by cases hcc⟩
  | cons hm htail =>
    constructor
    · intro hcc; cases hcc
    · intro c cs hcc
      cases hcc
      rfl

lemma Heap.WF_free {h : Heap α} (hw : h.WF) (a : Nat) : (h.free a).WF := by
  intro x hx
  by_cases hxa : x = a
  · subst hxa; exact Heap.free_mem_self h x
  · rw [Heap.free_mem_ne h hxa]
    exact hw x hx

lemma PushFront_eq (st : SingleLinkedList) (h : Heap α) (v : α) :
    st.PushFront h v =
      (⟨some h.fresh, st.size_ + 1⟩, (h.alloc ⟨v, st.head_next⟩).1) := rfl

lemma PushFront_rep {st : SingleLinkedList} {h : Heap α} {as : List Nat}
    {vs : List α} (hw : h.WF) (hr : ListRep h st.head_next as vs) (v : α) :
    ListRep (st.PushFront h v).2 (st.PushFront h v).1.head_next
      (h.fresh :: as) (v :: vs) ∧
    (st.PushFront h v).2.WF ∧
    (st.PushFront h v).1.size_ = st.size_ + 1 ∧
    (st.PushFront h v).2.fresh = h.fresh + 1 ∧
    (∀ a, a ≠ h.fresh → (st.PushFront h v).2.mem a = h.mem a) := by
  rw [PushFront_eq]
  refine ⟨?_, Heap.WF_alloc hw _, rfl, rfl, ?_⟩
  · exact ListRep.cons (Heap.alloc_mem_self h _) (hr.allocRep hw _)
  · intro a ha
    exact Heap.alloc_mem_ne h _ ha

lemma pushAll_nil (st : SingleLinkedList) (h : Heap α) :
    pushAll st h ([] : List α) = (st, h) := rfl

lemma pushAll_cons (st : SingleLinkedList) (h : Heap α) (v : α)
    (vs : List α) :
    pushAll st h (v :: vs) =
      pushAll (st.PushFront h v).1 (st.PushFront h v).2 vs := rfl

lemma pushAll_rep :
    ∀ (src : List α) (st : SingleLinkedList) (h : Heap α) (as : List Nat)
      (vs : List α), h.WF → ListRep h st.head_next as vs →
      ∃ newAs,
        ListRep (pushAll st h src).2 (pushAll st h src).1.head_next
          (newAs ++ as) (src.reverse ++ vs) ∧
        (pushAll st h src).2.WF ∧
        (pushAll st h src).1.size_ = st.size_ + src.length ∧
        (pushAll st h src).2.fresh = h.fresh + src.length ∧
        (∀ a ∈ newAs, h.fresh ≤ a) ∧
        (∀ a, a < h.fresh → (pushAll st h src).2.mem a = h.mem a) := by
  intro src
  induction src with
  | nil =>
    intro st h as vs hw hr
    refine ⟨[], ?_, hw, by simp [pushAll_nil], by simp [pushAll_nil],
      by simp, fun a _ => rfl⟩
    simp only [pushAll_nil, List.nil_append, List.reverse_nil]
    exact hr
  | cons v rest ih =>
    intro st h as vs hw hr
    obtain ⟨hrep1, hw1, hsz1, hf1, hmem1⟩ := PushFront_rep hw hr v
    obtain ⟨newAs, hrep, hw2, hsz, hf, hge, hmem⟩ :=
      ih (st.PushFront h v).1 (st.PushFront h v).2 (h.fresh :: as)
        (v :: vs) hw1 hrep1
    refine ⟨newAs ++ [h.fresh], ?_, ?_, ?_, ?_, ?_, ?_⟩
    · rw [pushAll_cons]
      have e1 : (newAs ++ [h.fresh]) ++ as = newAs ++ (h.fresh :: as) := by
        simp
      have e2 : (v :: rest).reverse ++ vs = rest.reverse ++ (v :: vs) := by
        simp
      rw [e1, e2]
      exact hrep
    · rw [pushAll_cons]; exact hw2
    · rw [pushAll_cons, hsz, hsz1]
      simp only [List.length_cons]
      omega
    · rw [pushAll_cons, hf, hf1]
      simp only [List.length_cons]
      omega
    · intro a ha
      rcases List.mem_append.mp ha with h1 | h2
      · have hge2 := hge a h1
        rw [hf1] at hge2
        omega
      · have h3 : a = h.fresh := by simpa using h2
        omega
    · intro a hlt
      rw [pushAll_cons, hmem a (by rw [hf1]; omega),
        hmem1 a (Nat.ne_of_lt hlt)]

lemma Clear_spec {st : SingleLinkedList} {h : Heap α} {as : List Nat}
    {vs : List α} (hw : h.WF) (hr : ListRep h st.head_next as vs) :
    ∃ h2, Clear st h = some (⟨none, 0⟩, h2) ∧ h2.fresh = h.fresh ∧
      (∀ a ∈ as, h2.mem a = none) ∧
      (∀ a, a ∉ as → h2.mem a = h.mem a) ∧ h2.WF := by
  obtain ⟨h2, hcl, hf, hin, hout⟩ :=
    clearLoop_of_rep as h st.head_next vs h.fresh hr (hr.length_le_fresh hw)
  refine ⟨h2, ?_, hf, hin, hout, ?_⟩
  · simp [Clear, hcl]
  · intro a ha
    rw [hf] at ha
    by_cases hmem : a ∈ as
    · exact hin a hmem
    · rw [hout a hmem]
      exact hw a ha

lemma PopFront_rep {st : SingleLinkedList} {h : Heap α} {a : Nat}
    {as : List Nat} {v : α} {vs : List α}
    (hr : ListRep h st.head_next (a :: as) (v :: vs))
    (hsz : st.size_ ≠ 0) :
    ∃ nxt, PopFront st h = some (⟨nxt, st.size_ - 1⟩, h.free a) ∧
      ListRep (h.free a) nxt as vs ∧
      (h.free a).mem a = none ∧
      (∀ x, x ≠ a → (h.free a).mem x = h.mem x) ∧
      (h.free a).fresh = h.fresh := by
  obtain ⟨hhead, nxt, hm, htail⟩ := hr.cons_inv
  have hnotin : a ∉ as := (List.nodup_cons.mp hr.nodup).1
  refine ⟨nxt, ?_, htail.freeRep hnotin, Heap.free_mem_self h a,
    fun x hx => Heap.free_mem_ne h hx, rfl⟩
  simp [PopFront, hsz, hhead, hm]

/-! ## `InsertAfter` and `EraseAfter` -/

lemma InsertAfter_headPtr_eq (st : SingleLinkedList) (h : Heap α) (v : α) :
    InsertAfter st h Iter.headPtr v =
      some ((st.PushFront h v).1, (st.PushFront h v).2,
        Iter.node h.fresh) := rfl

lemma InsertAfter_node_eq {st : SingleLinkedList} {h : Heap α} {q : Nat}
    {x : α} {nxt : Option Nat} (hm : h.mem q = some ⟨x, nxt⟩)
    (hq : q ≠ h.fresh) (v : α) :
    InsertAfter st h (Iter.node q) v =
      some (⟨st.head_next, st.size_ + 1⟩,
        ⟨updMem (h.alloc ⟨v, nxt⟩).1.mem q (some ⟨x, some h.fresh⟩),
          h.fresh + 1⟩,
        Iter.node h.fresh) := by
  have hm1 : (h.alloc ⟨v, nxt⟩).1.mem q = some ⟨x, nxt⟩ := by
    rw [Heap.alloc_mem_ne h _ hq]; exact hm
  have hstore := Heap.store_of_mem hm1 ⟨x, some h.fresh⟩
  simp only [InsertAfter, hm, Heap.alloc_addr]
  rw [hstore]
  rfl

lemma EraseAfter_node_eq {st : SingleLinkedList} {h : Heap α} {q b : Nat}
    {x y : α} {nxtb : Option Nat} (hmq : h.mem q = some ⟨x, some b⟩)
    (hmb : h.mem b = some ⟨y, nxtb⟩) (hqb : q ≠ b) :
    EraseAfter st h (Iter.node q) =
      some (⟨st.head_next, st.size_ - 1⟩,
        ⟨updMem (h.free b).mem q (some ⟨x, nxtb⟩), h.fresh⟩,
        iterOf nxtb) := by
  have hfb : (h.free b).mem q = some ⟨x, some b⟩ := by
    rw [Heap.free_mem_ne h hqb]; exact hmq
  have hstore := Heap.store_of_mem hfb ⟨x, nxtb⟩
  simp only [EraseAfter, hmq, hmb]
  rw [hstore]
  rfl

lemma EraseAfter_headPtr_eq {st : SingleLinkedList} {h : Heap α} {b : Nat}
    {y : α} {nxtb : Option Nat} (hhead : st.head_next = some b)
    (hmb : h.mem b = some ⟨y, nxtb⟩) :
    EraseAfter st h Iter.headPtr =
      some (⟨nxtb, st.size_ - 1⟩, h.free b, iterOf nxtb) := by
  simp [EraseAfter, hhead, hmb]

lemma InsertAfter_node_rep {st : SingleLinkedList} {h : Heap α}
    {as1 as2 : List Nat} {vs1 vs2 : List α} {p : Nat} {x : α}
    (hw : h.WF)
    (hr : ListRep h st.head_next (as1 ++ p :: as2) (vs1 ++ x :: vs2))
    (hlen : as1.length = vs1.length) (v : α) :
    ∃ h3, InsertAfter st h (Iter.node p) v =
        some (⟨st.head_next, st.size_ + 1⟩, h3, Iter.node h.fresh) ∧
      ListRep h3 st.head_next (as1 ++ p :: h.fresh :: as2)
        (vs1 ++ x :: v :: vs2) ∧
      h3.WF ∧ h3.fresh = h.fresh + 1 ∧
      (∀ a, a ≠ p → a ≠ h.fresh → h3.mem a = h.mem a) := by
  obtain ⟨mid, hseg, hrest⟩ := rep_split as1 vs1 hr hlen
  obtain ⟨hmid, nxt, hmp, htail⟩ := hrest.cons_inv
  subst hmid
  have hplt : p < h.fresh := Heap.WF_of_mem_lt hw hmp
  have hpfresh : p ≠ h.fresh := Nat.ne_of_lt hplt
  have hnd := hr.nodup
  have hdisj : as1.Disjoint (p :: as2) := List.disjoint_of_nodup_append hnd
  have hpnotin : p ∉ as2 := (List.nodup_cons.mp hrest.nodup).1
  set h3 : Heap α :=
    ⟨updMem (h.alloc ⟨v, nxt⟩).1.mem p (some ⟨x, some h.fresh⟩),
      h.fresh + 1⟩ with hh3
  have hm3p : h3.mem p = some ⟨x, some h.fresh⟩ := updMem_self _ _ _
  have hm3f : h3.mem h.fresh = some ⟨v, nxt⟩ := by
    show updMem (h.alloc ⟨v, nxt⟩).1.mem p
      (some ⟨x, some h.fresh⟩) h.fresh = some ⟨v, nxt⟩
    rw [updMem_ne _ _ (fun hh => hpfresh hh.symm)]
    exact Heap.alloc_mem_self h ⟨v, nxt⟩
  have hm3other : ∀ a, a ≠ p → a ≠ h.fresh → h3.mem a = h.mem a := by
    intro a hap haf
    show updMem (h.alloc ⟨v, nxt⟩).1.mem p
      (some ⟨x, some h.fresh⟩) a = h.mem a
    rw [updMem_ne _ _ hap]
    exact Heap.alloc_mem_ne h _ haf
  have htail3 : ListRep h3 nxt as2 vs2 :=
    htail.frame (fun a ha =>
      hm3other a (fun hh => hpnotin (hh ▸ ha))
        (Nat.ne_of_lt (htail.lt_fresh hw a ha)))
  have hrep_p : ListRep h3 (some p) (p :: h.fresh :: as2)
      (x :: v :: vs2) :=
    ListRep.cons hm3p (ListRep.cons hm3f htail3)
  have hseg3 : SegRep h3 st.head_next as1 vs1 (some p) :=
    hseg.seg_frame (fun a ha =>
      hm3other a (fun hh => hdisj ha (hh ▸ List.mem_cons_self p as2))
        (Nat.ne_of_lt (hr.lt_fresh hw a (List.mem_append_left _ ha))))
  refine ⟨h3, InsertAfter_node_eq hmp hpfresh v,
    hseg3.append_rep hrep_p, ?_, rfl, hm3other⟩
  intro a ha
  have ha2 : h.fresh + 1 ≤ a := ha
  rw [hm3other a (by omega) (by omega)]
  exact hw a (by omega)

lemma EraseAfter_node_rep {st : SingleLinkedList} {h : Heap α}
    {as1 as2 : List Nat} {vs1 vs2 : List α} {p b : Nat} {x y : α}
    (hw : h.WF)
    (hr : ListRep h st.head_next (as1 ++ p :: b :: as2)
      (vs1 ++ x :: y :: vs2))
    (hlen : as1.length = vs1.length) :
    ∃ h2 o2, EraseAfter st h (Iter.node p) =
        some (⟨st.head_next, st.size_ - 1⟩, h2, iterOf o2) ∧
      ListRep h2 st.head_next (as1 ++ p :: as2) (vs1 ++ x :: vs2) ∧
      (as2 = [] → o2 = none) ∧
      (∀ c cs, as2 = c :: cs → o2 = some c) ∧
      h2.WF ∧ h2.fresh = h.fresh ∧ h2.mem b = none ∧
      (∀ a, a ≠ p → a ≠ b → h2.mem a = h.mem a) ∧
      h2.mem p = some ⟨x, o2⟩ := by
  obtain ⟨mid, hseg, hrest⟩ := rep_split as1 vs1 hr hlen
  obtain ⟨hmid, nxtp, hmp, htailp⟩ := hrest.cons_inv
  subst hmid
  obtain ⟨hb, nxtb, hmb, htail⟩ := htailp.cons_inv
  subst hb
  have hnd := hr.nodup
  have hnd2 := hrest.nodup
  have hdisj : as1.Disjoint (p :: b :: as2) :=
    List.disjoint_of_nodup_append hnd
  have hpnotin : p ∉ b :: as2 := (List.nodup_cons.mp hnd2).1
  have hpb : p ≠ b := fun hh => hpnotin (hh ▸ List.mem_cons_self b as2)
  have hbnotin : b ∉ as2 :=
    (List.nodup_cons.mp (List.nodup_cons.mp hnd2).2).1
  have hpnotin2 : p ∉ as2 := fun hh => hpnotin (List.mem_cons_of_mem b hh)
  have hplt : p < h.fresh := Heap.WF_of_mem_lt hw hmp
  have hblt : b < h.fresh := Heap.WF_of_mem_lt hw hmb
  set h2 : Heap α := ⟨updMem (h.free b).mem p (some ⟨x, nxtb⟩), h.fresh⟩
    with hh2
  have hm2p : h2.mem p = some ⟨x, nxtb⟩ := updMem_self _ _ _
  have hm2b : h2.mem b = none := by
    show updMem (h.free b).mem p (some ⟨x, nxtb⟩) b = none
    rw [updMem_ne _ _ (fun hh => hpb hh.symm)]
    exact Heap.free_mem_self h b
  have hm2other : ∀ a, a ≠ p → a ≠ b → h2.mem a = h.mem a := by
    intro a hap hab
    show updMem (h.free b).mem p (some ⟨x, nxtb⟩) a = h.mem a
    rw [updMem_ne _ _ hap]
    exact Heap.free_mem_ne h hab
  have htail2 : ListRep h2 nxtb as2 vs2 :=
    htail.frame (fun a ha =>
      hm2other a (fun hh => hpnotin2 (hh ▸ ha))
        (fun hh => hbnotin (hh ▸ ha)))
  have hrep_p : ListRep h2 (some p) (p :: as2) (x :: vs2) :=
    ListRep.cons hm2p htail2
  have hseg2 : SegRep h2 st.head_next as1 vs1 (some p) :=
    hseg.seg_frame (fun a ha =>
      hm2other a (fun hh => hdisj ha (hh ▸ List.mem_cons_self p (b :: as2)))
        (fun hh =>
          hdisj ha (by
            rw [hh]
            exact List.mem_cons_of_mem p (List.mem_cons_self b as2))))
  refine ⟨h2, nxtb, EraseAfter_node_eq hmp hmb hpb,
    hseg2.append_rep hrep_p, htail.head_none.1, htail.head_none.2, ?_,
    rfl, hm2b, hm2other, hm2p⟩
  intro a ha
  have ha2 : h.fresh ≤ a := ha
  rw [hm2other a (by omega) (by omega)]
  exact hw a (by omega)

lemma EraseAfter_headPtr_rep {st : SingleLinkedList} {h : Heap α}
    {b : Nat} {bs : List Nat} {y : α} {vs : List α}
    (hr : ListRep h st.head_next (b :: bs) (y :: vs)) :
    ∃ o2, EraseAfter st h Iter.headPtr =
        some (⟨o2, st.size_ - 1⟩, h.free b, iterOf o2) ∧
      ListRep (h.free b) o2 bs vs ∧
      (bs = [] → o2 = none) ∧ (∀ c cs, bs = c :: cs → o2 = some c) ∧
      (h.free b).mem b = none ∧
      (∀ a, a ≠ b → (h.free b).mem a = h.mem a) ∧
      (h.free b).fresh = h.fresh := by
  obtain ⟨hhead, nxtb, hmb, htail⟩ := hr.cons_inv
  have hbnotin : b ∉ bs := (List.nodup_cons.mp hr.nodup).1
  exact ⟨nxtb, EraseAfter_headPtr_eq hhead hmb, htail.freeRep hbnotin,
    htail.head_none.1, htail.head_none.2, Heap.free_mem_self h b,
    fun a ha => Heap.free_mem_ne h ha, rfl⟩

/-! ## `CopyList` correctness -/

lemma CopyList_rep {st : SingleLinkedList} {h : Heap α} {as0 : List Nat}
    {vs0 : List α} (hw : h.WF) (hr0 : ListRep h st.head_next as0 vs0)
    (src : List α) :
    ∃ st2 h4 as2,
      CopyList st h src = some (st2, h4) ∧
      ListRep h4 st2.head_next as2 src ∧
      st2.size_ = src.length ∧
      h4.WF ∧
      (∀ a ∈ as2, h.fresh ≤ a) ∧
      (∀ a, a < h.fresh → a ∉ as0 → h4.mem a = h.mem a) ∧
      (∀ a ∈ as0, h4.mem a = none) ∧
      h4.fresh = h.fresh + (src.length + src.length) := by
  obtain ⟨nA1, hrep1, hw1, hsz1, hf1, hge1, hmem1⟩ :=
    pushAll_rep src ⟨none, 0⟩ h [] [] hw ListRep.nil
  set p1 := pushAll ⟨none, 0⟩ h src with hp1
  simp only [List.append_nil] at hrep1
  have hlen1 : nA1.length ≤ p1.2.fresh := hrep1.length_le_fresh hw1
  have htv : traverseVals p1.2 p1.2.fresh p1.1.head_next =
      some src.reverse :=
    traverseVals_of_rep hrep1 _ hlen1
  obtain ⟨nA2, hrep2, hw2, hsz2, hf2, hge2, hmem2⟩ :=
    pushAll_rep src.reverse ⟨none, 0⟩ p1.2 [] [] hw1 ListRep.nil
  set p2 := pushAll ⟨none, 0⟩ p1.2 src.reverse with hp2
  simp only [List.append_nil] at hrep2
  rw [List.reverse_reverse] at hrep2
  have hA1lt : ∀ a ∈ nA1, a < p1.2.fresh := hrep1.lt_fresh hw1
  have hA0lt : ∀ a ∈ as0, a < h.fresh := hr0.lt_fresh hw
  have hr0two : ListRep p2.2 st.head_next as0 vs0 := by
    refine hr0.frame (fun a ha => ?_)
    have h1 : a < h.fresh := hA0lt a ha
    have h2 : a < p1.2.fresh := by rw [hf1]; omega
    rw [hmem2 a h2, hmem1 a h1]
  have hlen0 : as0.length ≤ p2.2.fresh := hr0two.length_le_fresh hw2
  obtain ⟨h3, hcl1, hf3, hin3, hout3⟩ :=
    clearLoop_of_rep as0 p2.2 st.head_next vs0 p2.2.fresh hr0two hlen0
  have hA1notin0 : ∀ a ∈ nA1, a ∉ as0 := by
    intro a ha hmem
    have h1 := hge1 a ha
    have h2 := hA0lt a hmem
    omega
  have hrep1three : ListRep h3 p1.1.head_next nA1 src.reverse := by
    refine (hrep1.frame (fun a ha => hmem2 a (hA1lt a ha))).frame
      (fun a ha => hout3 a (hA1notin0 a ha))
  have hlenA1 : nA1.length ≤ h3.fresh := by
    rw [hf3, hf2]
    have := hrep1.length_le_fresh hw1
    omega
  obtain ⟨h4, hcl2, hf4, hin4, hout4⟩ :=
    clearLoop_of_rep nA1 h3 p1.1.head_next src.reverse h3.fresh
      hrep1three hlenA1
  have hA2ge : ∀ a ∈ nA2, p1.2.fresh ≤ a := hge2
  have hA2notin0 : ∀ a ∈ nA2, a ∉ as0 := by
    intro a ha hmem
    have h1 := hA2ge a ha
    have h2 := hA0lt a hmem
    rw [hf1] at h1
    omega
  have hA2notinA1 : ∀ a ∈ nA2, a ∉ nA1 := by
    intro a ha hmem
    have h1 := hA2ge a ha
    have h2 := hA1lt a hmem
    omega
  have hrep4 : ListRep h4 p2.1.head_next nA2 src := by
    refine (hrep2.frame (fun a ha => hout3 a (hA2notin0 a ha))).frame
      (fun a ha => hout4 a (hA2notinA1 a ha))
  have hcomp : CopyList st h src = some (p2.1, h4) := by
    show (match traverseVals p1.2 p1.2.fresh p1.1.head_next with
      | none => none
      | some tmp1Vals =>
        let p2x := pushAll ⟨none, 0⟩ p1.2 tmp1Vals
        let sw := st.swap p2x.1
        match clearLoop p2x.2.fresh sw.2.head_next p2x.2 with
        | none => none
        | some h3x =>
          match clearLoop h3x.fresh p1.1.head_next h3x with
          | none => none
          | some h4x => some (sw.1, h4x)) = some (p2.1, h4)
    rw [htv]
    show (match clearLoop p2.2.fresh st.head_next p2.2 with
      | none => none
      | some h3x =>
        match clearLoop h3x.fresh p1.1.head_next h3x with
        | none => none
        | some h4x => some ((st.swap p2.1).1, h4x)) = some (p2.1, h4)
    rw [hcl1]
    show (match clearLoop h3.fresh p1.1.head_next h3 with
      | none => none
      | some h4x => some ((st.swap p2.1).1, h4x)) = some (p2.1, h4)
    rw [hcl2]
    rfl
  refine ⟨p2.1, h4, nA2, hcomp, hrep4, ?_, ?_, ?_, ?_, ?_, ?_⟩
  · rw [hsz2]
    simp
  · intro a ha
    rw [hf4, hf3] at ha
    have hnotA1 : a ∉ nA1 := by
      intro hmem
      have := hA1lt a hmem
      rw [hf2] at ha
      omega
    by_cases h0 : a ∈ as0
    · rw [hout4 a hnotA1]
      exact hin3 a h0
    · rw [hout4 a hnotA1, hout3 a h0]
      exact hw2 a ha
  · intro a ha
    have := hA2ge a ha
    rw [hf1] at this
    omega
  · intro a hlt hnot0
    have hnotA1 : a ∉ nA1 := by
      intro hmem
      have := hge1 a hmem
      omega
    rw [hout4 a hnotA1, hout3 a hnot0, hmem2 a (by rw [hf1]; omega),
      hmem1 a hlt]
  · intro a ha
    have hnotA1 : a ∉ nA1 := fun hmem => hA1notin0 a hmem ha
    rw [hout4 a hnotA1]
    exact hin3 a ha
  · rw [hf4, hf3, hf2, hf1]
    simp
    omega

lemma ofList_rep {h : Heap α} (hw : h.WF) (src : List α) :
    ∃ st2 h4 as2,
      ofList h src = some (st2, h4) ∧
      ListRep h4 st2.head_next as2 src ∧
      st2.size_ = src.length ∧ h4.WF ∧
      (∀ a ∈ as2, h.fresh ≤ a) ∧
      (∀ a, a < h.fresh → h4.mem a = h.mem a) ∧
      h4.fresh = h.fresh + (src.length + src.length) := by
  have hnil : ListRep h (SingleLinkedList.mk none 0).head_next [] [] :=
    ListRep.nil
  obtain ⟨st2, h4, as2, hcomp, hrep, hsz, hw4, hge, hmem, _, hf⟩ :=
    CopyList_rep hw hnil src
  exact ⟨st2, h4, as2, hcomp, hrep, hsz, hw4, hge,
    fun a ha => hmem a ha (List.not_mem_nil a), hf⟩

lemma copyFrom_rep {h : Heap α} {other : SingleLinkedList} {as : List Nat}
    {vs : List α} (hw : h.WF) (hr : ListRep h other.head_next as vs) :
    ∃ st2 h4 as2,
      copyFrom h other = some (st2, h4) ∧
      ListRep h4 st2.head_next as2 vs ∧
      st2.size_ = vs.length ∧ h4.WF ∧
      (∀ a ∈ as2, h.fresh ≤ a) ∧
      (∀ a, a < h.fresh → h4.mem a = h.mem a) ∧
      ListRep h4 other.head_next as vs ∧
      (∀ a ∈ as, a < h.fresh) ∧
      h4.fresh = h.fresh + (vs.length + vs.length) := by
  have htv : traverseVals h h.fresh other.head_next = some vs :=
    traverseVals_of_rep hr _ (hr.length_le_fresh hw)
  have hnil : ListRep h (SingleLinkedList.mk none 0).head_next [] [] :=
    ListRep.nil
  obtain ⟨st2, h4, as2, hcomp, hrep, hsz, hw4, hge, hmem, _, hf⟩ :=
    CopyList_rep hw hnil vs
  have hmemout : ∀ a, a < h.fresh → h4.mem a = h.mem a :=
    fun a ha => hmem a ha (List.not_mem_nil a)
  refine ⟨st2, h4, as2, ?_, hrep, hsz, hw4, hge, hmemout, ?_,
    hr.lt_fresh hw, hf⟩
  · show (match traverseVals h h.fresh other.head_next with
      | none => none
      | some vsx => CopyList ⟨none, 0⟩ h vsx) = some (st2, h4)
    rw [htv]
    exact hcomp
  · exact hr.frame (fun a ha => hmemout a (hr.lt_fresh hw a ha))

lemma assign_rep {st rhs : SingleLinkedList} {h : Heap α} {as0 : List Nat}
    {vs0 : List α} {as : List Nat} {vs : List α} (hw : h.WF)
    (hr0 : ListRep h st.head_next as0 vs0)
    (hr : ListRep h rhs.head_next as vs)
    (hdisj : ∀ a ∈ as0, a ∉ as) :
    ∃ st2 h5 as2,
      assign st h rhs false = some (st2, h5) ∧
      ListRep h5 st2.head_next as2 vs ∧
      st2.size_ = vs.length ∧ h5.WF ∧
      ListRep h5 rhs.head_next as vs ∧
      (∀ a ∈ as2, h.fresh ≤ a) := by
  obtain ⟨tmp, h4, as2, hcomp, hrep, hsz, hw4, hge, hmem4, hrother, hlt,
    hf⟩ := copyFrom_rep hw hr
  have hr0four : ListRep h4 st.head_next as0 vs0 :=
    hr0.frame (fun a ha => hmem4 a (hr0.lt_fresh hw a ha))
  obtain ⟨h5, hcl, hf5, hin5, hout5⟩ :=
    clearLoop_of_rep as0 h4 st.head_next vs0 h4.fresh hr0four
      (hr0four.length_le_fresh hw4)
  have hw5 : h5.WF := by
    intro a ha
    rw [hf5] at ha
    by_cases hmem : a ∈ as0
    · exact hin5 a hmem
    · rw [hout5 a hmem]
      exact hw4 a ha
  have hA2notin0 : ∀ a ∈ as2, a ∉ as0 := by
    intro a ha hmem
    have h1 := hge a ha
    have h2 := hr0.lt_fresh hw a hmem
    omega
  have hcomp2 : assign st h rhs false = some (tmp, h5) := by
    show (match copyFrom h rhs with
      | none => none
      | some th =>
        let sw := st.swap th.1
        match clearLoop th.2.fresh sw.2.head_next th.2 with
        | none => none
        | some h3 => some (sw.1, h3)) = some (tmp, h5)
    rw [hcomp]
    show (match clearLoop h4.fresh st.head_next h4 with
      | none => none
      | some h3 => some ((st.swap tmp).1, h3)) = some (tmp, h5)
    rw [hcl]
    rfl
  refine ⟨tmp, h5, as2, hcomp2, ?_, hsz, hw5, ?_, hge⟩
  · exact hrep.frame (fun a ha => hout5 a (hA2notin0 a ha))
  · refine hrother.frame (fun a ha => hout5 a ?_)
    intro hmem
    exact hdisj a hmem ha

/-! ## Comparison loops -/

lemma stdEqual_iff [DecidableEq α] :
    ∀ v1 v2 : List α, stdEqual v1 v2 = true ↔ v1 = v2 := by
  intro v1
  induction v1 with
  | nil =>
    intro v2
    cases v2 with
    | nil => simp [stdEqual]
    | cons b bs => simp [stdEqual]
  | cons a as ih =>
    intro v2
    cases v2 with
    | nil => simp [stdEqual]
    | cons b bs =>
      simp [stdEqual, ih bs]

lemma list_eq_iff {v1 v2 : List α} :
    v1 = v2 ↔ (v1.length = v2.length ∧
      ∀ i (h1 : i < v1.length) (h2 : i < v2.length),
        v1.get ⟨i, h1⟩ = v2.get ⟨i, h2⟩) := by
  constructor
  · rintro rfl
    exact ⟨rfl, fun i h1 h2 => rfl⟩
  · rintro ⟨hl, hg⟩
    exact List.ext_get hl hg

lemma lexComp_iff [LinearOrder α] :
    ∀ v1 v2 : List α, lexComp v1 v2 = true ↔ List.Lex (· < ·) v1 v2 := by
  intro v1
  induction v1 with
  | nil =>
    intro v2
    cases v2 with
    | nil =>
      simp only [lexComp]
      constructor
      · intro hcc; cases hcc
      · intro hcc; cases hcc
    | cons b bs =>
      simp only [lexComp]
      constructor
      · intro _; exact List.Lex.nil
      · intro _; trivial
  | cons a as ih =>
    intro v2
    cases v2 with
    | nil =>
      simp only [lexComp]
      constructor
      · intro hcc; cases hcc
      · intro hcc; cases hcc
    | cons b bs =>
      simp only [lexComp]
      rcases lt_trichotomy a b with hab | hab | hab
      · rw [if_pos hab]
        constructor
        · intro _; exact List.Lex.rel hab
        · intro _; trivial
      · subst hab
        rw [if_neg (lt_irrefl a), if_neg (lt_irrefl a)]
        rw [ih bs]
        constructor
        · exact fun hlex => List.Lex.cons hlex
        · intro hlex
          cases hlex with
          | cons htail => exact htail
          | rel hrel => exact absurd hrel (lt_irrefl a)
      · rw [if_neg (asymm hab), if_pos hab]
        constructor
        · intro hcc; cases hcc
        · intro hlex
          cases hlex with
          | cons htail => exact absurd hab (lt_irrefl a)
          | rel hrel => exact absurd hrel (asymm hab)

lemma lexComp_self_append [LinearOrder α] :
    ∀ (v1 t : List α), t ≠ [] → lexComp v1 (v1 ++ t) = true := by
  intro v1
  induction v1 with
  | nil =>
    intro t ht
    cases t with
    | nil => exact absurd rfl ht
    | cons c cs => simp [lexComp]
  | cons a as ih =>
    intro t ht
    show lexComp (a :: as) (a :: (as ++ t)) = true
    simp only [lexComp]
    rw [if_neg (lt_irrefl a), if_neg (lt_irrefl a)]
    exact ih t ht

/-! ## Claim theorems -/

/-- C1: constructing a `SingleLinkedList` from a finite input sequence
`src` (the initializer-list constructor, which pushes every element of
`src` to the front of a temporary, pushes every element of that temporary
to the front of a second temporary, then swaps) yields a list whose
front-to-back iteration order is exactly `src` and whose size (`GetSize`)
equals `src.length`; the result also satisfies the structural
invariant. -/
theorem claim_C1_construct_from_sequence {α : Type} {h : Heap α}
    (hw : h.WF) (src : List α) :
    ∃ st2 h2, ofList h src = some (st2, h2) ∧
      traverseVals h2 h2.fresh st2.head_next = some src ∧
      st2.GetSize = src.length ∧
      Valid st2 h2 := by
  obtain ⟨st2, h2, as2, hcomp, hrep, hsz, hw2, _, _, _⟩ := ofList_rep hw src
  refine ⟨st2, h2, hcomp,
    traverseVals_of_rep hrep _ (hrep.length_le_fresh hw2), hsz,
    as2, src, hrep, ?_⟩
  rw [hsz, hrep.length_eq]

/-- Witness for C1 at the concrete input `[1, 2, 3]` over the empty
heap. -/
theorem claim_C1_witness :
    ∃ st2 h2, ofList (Heap.emptyHeap Int) [1, 2, 3] = some (st2, h2) ∧
      traverseVals h2 h2.fresh st2.head_next = some [1, 2, 3] ∧
      st2.GetSize = 3 ∧ Valid st2 h2 :=
  claim_C1_construct_from_sequence (fun _ _ => rfl) [1, 2, 3]

lemma before_begin_eq (st : SingleLinkedList) :
    st.before_begin = Iter.headPtr := rfl

/-- C2: every public operation of `SingleLinkedList` (default
construction, construction from a sequence, copy construction, copy
assignment of separately stored lists, `PushFront`, `PopFront` on a
non-empty list, `InsertAfter` and `EraseAfter` on valid positions of this
list, `Clear`, `swap`) preserves the structural invariant `Valid`: the
stored `size_` equals the number of nodes reachable from the sentinel by
`next_node` links (excluding the sentinel), and the chain is finite and
null-terminated (both encoded by `ListRep`). -/
theorem claim_C2_invariant_preservation {α : Type} :
    (∀ h : Heap α, Valid SingleLinkedList.defaultList h) ∧
    (∀ (h : Heap α) (src : List α) (st2 : SingleLinkedList) (h2 : Heap α),
      h.WF → ofList h src = some (st2, h2) → Valid st2 h2) ∧
    (∀ (h : Heap α) (other st2 : SingleLinkedList) (h2 : Heap α),
      h.WF → Valid other h → copyFrom h other = some (st2, h2) →
      Valid st2 h2) ∧
    (∀ (st rhs : SingleLinkedList) (h : Heap α) (as0 : List Nat)
      (vs0 : List α) (as : List Nat) (vs : List α)
      (st2 : SingleLinkedList) (h2 : Heap α),
      h.WF → ListRep h st.head_next as0 vs0 →
      ListRep h rhs.head_next as vs → (∀ a ∈ as0, a ∉ as) →
      assign st h rhs false = some (st2, h2) → Valid st2 h2) ∧
    (∀ (st : SingleLinkedList) (h : Heap α) (v : α), h.WF → Valid st h →
      Valid (st.PushFront h v).1 (st.PushFront h v).2) ∧
    (∀ (st : SingleLinkedList) (h : Heap α) (st2 : SingleLinkedList)
      (h2 : Heap α), Valid st h → PopFront st h = some (st2, h2) →
      Valid st2 h2) ∧
    (∀ (st : SingleLinkedList) (h : Heap α) (v : α)
      (st2 : SingleLinkedList) (h2 : Heap α) (it : Iter), h.WF →
      Valid st h →
      InsertAfter st h st.before_begin v = some (st2, h2, it) →
      Valid st2 h2) ∧
    (∀ (st : SingleLinkedList) (h : Heap α) (p : Nat) (v : α)
      (st2 : SingleLinkedList) (h2 : Heap α) (it : Iter)
      (as : List Nat) (vs : List α), h.WF →
      ListRep h st.head_next as vs → st.size_ = as.length → p ∈ as →
      InsertAfter st h (Iter.node p) v = some (st2, h2, it) →
      Valid st2 h2) ∧
    (∀ (st : SingleLinkedList) (h : Heap α) (st2 : SingleLinkedList)
      (h2 : Heap α) (it : Iter), Valid st h → st.head_next ≠ none →
      EraseAfter st h st.before_begin = some (st2, h2, it) →
      Valid st2 h2) ∧
    (∀ (st : SingleLinkedList) (h : Heap α) (p b : Nat)
      (as1 as2 : List Nat) (vs1 vs2 : List α) (x y : α)
      (st2 : SingleLinkedList) (h2 : Heap α) (it : Iter), h.WF →
      ListRep h st.head_next (as1 ++ p :: b :: as2)
        (vs1 ++ x :: y :: vs2) →
      as1.length = vs1.length →
      st.size_ = (as1 ++ p :: b :: as2).length →
      EraseAfter st h (Iter.node p) = some (st2, h2, it) →
      Valid st2 h2) ∧
    (∀ (st : SingleLinkedList) (h : Heap α) (st2 : SingleLinkedList)
      (h2 : Heap α), h.WF → Valid st h → Clear st h = some (st2, h2) →
      Valid st2 h2) ∧
    (∀ (st rhs : SingleLinkedList) (h : Heap α), Valid st h →
      Valid rhs h → Valid (st.swap rhs).1 h ∧ Valid (st.swap rhs).2 h) := by
  refine ⟨?_, ?_, ?_, ?_, ?_, ?_, ?_, ?_, ?_, ?_, ?_, ?_⟩
  · intro h
    exact ⟨[], [], ListRep.nil, rfl⟩
  · intro h src st2 h2 hw hcomp
    obtain ⟨st2x, h2x, as2, hcompx, hrep, hsz, _, _, _, _⟩ :=
      ofList_rep hw src
    rw [hcompx] at hcomp
    injection hcomp with hpair
    injection hpair with he1 he2
    subst he1; subst he2
    exact ⟨as2, src, hrep, by rw [hsz, hrep.length_eq]⟩
  · intro h other st2 h2 hw hv hcomp
    obtain ⟨as, vs, hr, _⟩ := hv
    obtain ⟨st2x, h2x, as2, hcompx, hrep, hsz, _, _, _, _, _, _⟩ :=
      copyFrom_rep hw hr
    rw [hcompx] at hcomp
    injection hcomp with hpair
    injection hpair with he1 he2
    subst he1; subst he2
    exact ⟨as2, vs, hrep, by rw [hsz, hrep.length_eq]⟩
  · intro st rhs h as0 vs0 as vs st2 h2 hw hr0 hr hdisj hcomp
    obtain ⟨st2x, h2x, as2, hcompx, hrep, hsz, _, _, _⟩ :=
      assign_rep hw hr0 hr hdisj
    rw [hcompx] at hcomp
    injection hcomp with hpair
    injection hpair with he1 he2
    subst he1; subst he2
    exact ⟨as2, vs, hrep, by rw [hsz, hrep.length_eq]⟩
  · intro st h v hw hv
    obtain ⟨as, vs, hr, hsz⟩ := hv
    obtain ⟨hrep, _, hsz2, _, _⟩ := PushFront_rep hw hr v
    refine ⟨h.fresh :: as, v :: vs, hrep, ?_⟩
    rw [hsz2, hsz]
    rfl
  · intro st h st2 h2 hv hcomp
    obtain ⟨as, vs, hr, hsz⟩ := hv
    cases as with
    | nil =>
      exfalso
      have hhead : st.head_next = none := hr.head_none.1 rfl
      have hzero : st.size_ = 0 := hsz
      rw [PopFront, if_pos hzero] at hcomp
      cases hcomp
    | cons a ast =>
      cases vs with
      | nil =>
        exfalso
        have := hr.length_eq
        simp at this
      | cons v vst =>
        have hne : st.size_ ≠ 0 := by
          rw [hsz]
          simp
        obtain ⟨nxt, hcompx, hrep2, _, _, _⟩ := PopFront_rep hr hne
        rw [hcompx] at hcomp
        injection hcomp with hpair
        injection hpair with he1 he2
        subst he2
        refine ⟨ast, vst, ?_, ?_⟩
        · rw [← he1]
          exact hrep2
        · rw [← he1]
          show st.size_ - 1 = ast.length
          simp only [List.length_cons] at hsz
          omega
  · intro st h v st2 h2 it hw hv hcomp
    obtain ⟨as, vs, hr, hsz⟩ := hv
    rw [before_begin_eq, InsertAfter_headPtr_eq] at hcomp
    injection hcomp with hpair
    injection hpair with he1 hpair2
    injection hpair2 with he2 he3
    subst he1; subst he2
    obtain ⟨hrep, _, hsz2, _, _⟩ := PushFront_rep hw hr v
    refine ⟨h.fresh :: as, v :: vs, hrep, ?_⟩
    rw [hsz2, hsz]
    rfl
  · intro st h p v st2 h2 it as vs hw hr hsz hp hcomp
    obtain ⟨as1, as2, vs1, x, vs2, ha, hvv, hlen⟩ := hr.mem_decomp hp
    rw [ha, hvv] at hr
    obtain ⟨h3, hcompx, hrep, _, _, _⟩ := InsertAfter_node_rep hw hr hlen v
    rw [hcompx] at hcomp
    injection hcomp with hpair
    injection hpair with he1 hpair2
    injection hpair2 with he2 he3
    subst he1; subst he2
    refine ⟨as1 ++ p :: h.fresh :: as2, vs1 ++ x :: v :: vs2, hrep, ?_⟩
    show st.size_ + 1 = (as1 ++ p :: h.fresh :: as2).length
    rw [hsz, ha]
    simp only [List.length_append, List.length_cons]
    omega
  · intro st h st2 h2 it hv hne hcomp
    obtain ⟨as, vs, hr, hsz⟩ := hv
    cases as with
    | nil =>
      exact absurd (hr.head_none.1 rfl) hne
    | cons b bs =>
      cases vs with
      | nil =>
        exfalso
        have := hr.length_eq
        simp at this
      | cons y vst =>
        rw [before_begin_eq] at hcomp
        obtain ⟨o2, hcompx, hrep2, _, _, _, _, _⟩ :=
          EraseAfter_headPtr_rep hr
        rw [hcompx] at hcomp
        injection hcomp with hpair
        injection hpair with he1 hpair2
        injection hpair2 with he2 he3
        subst he2
        refine ⟨bs, vst, ?_, ?_⟩
        · rw [← he1]
          exact hrep2
        · rw [← he1]
          show st.size_ - 1 = bs.length
          simp only [List.length_cons] at hsz
          omega
  · intro st h p b as1 as2 vs1 vs2 x y st2 h2 it hw hr hlen hsz hcomp
    obtain ⟨h2x, o2, hcompx, hrep, _, _, _, _, _, _, _⟩ :=
      EraseAfter_node_rep hw hr hlen
    rw [hcompx] at hcomp
    injection hcomp with hpair
    injection hpair with he1 hpair2
    injection hpair2 with he2 he3
    subst he1; subst he2
    refine ⟨as1 ++ p :: as2, vs1 ++ x :: vs2, hrep, ?_⟩
    show st.size_ - 1 = (as1 ++ p :: as2).length
    rw [hsz]
    simp only [List.length_append, List.length_cons]
    omega
  · intro st h st2 h2 hw hv hcomp
    obtain ⟨as, vs, hr, _⟩ := hv
    obtain ⟨h2x, hcompx, _, _, _, _⟩ := Clear_spec hw hr
    rw [hcompx] at hcomp
    injection hcomp with hpair
    injection hpair with he1 he2
    subst he2
    rw [← he1]
    exact ⟨[], [], ListRep.nil, rfl⟩
  · intro st rhs h hv1 hv2
    obtain ⟨as, vs, hr, hsz⟩ := hv1
    obtain ⟨as2, vs2, hr2, hsz2⟩ := hv2
    exact ⟨⟨as2, vs2, hr2, hsz2⟩, ⟨as, vs, hr, hsz⟩⟩

/-- Witness for C2: the `PushFront` case at a concrete input (pushing `5`
onto the empty list over the empty heap preserves the invariant). -/
theorem claim_C2_witness :
    Valid ((SingleLinkedList.mk none 0).PushFront (Heap.emptyHeap Int) 5).1
      ((SingleLinkedList.mk none 0).PushFront (Heap.emptyHeap Int) 5).2 :=
  (@claim_C2_invariant_preservation Int).2.2.2.2.1
    (SingleLinkedList.mk none 0) (Heap.emptyHeap Int) 5
    (fun _ _ => rfl) ⟨[], [], ListRep.nil, rfl⟩

lemma PopFront_frame {L other : SingleLinkedList} {h : Heap α}
    {as : List Nat} {vs : List α} {bs : List Nat} {ws : List α}
    (hr : ListRep h L.head_next as vs) (hsz : L.size_ = as.length)
    (hrB : ListRep h other.head_next bs ws)
    (hdisj : ∀ a ∈ as, a ∉ bs) :
    ∀ (st3 : SingleLinkedList) (h3 : Heap α),
      PopFront L h = some (st3, h3) → ListRep h3 other.head_next bs ws := by
  intro st3 h3 hcomp
  cases as with
  | nil =>
    exfalso
    have hzero : L.size_ = 0 := hsz
    rw [PopFront, if_pos hzero] at hcomp
    cases hcomp
  | cons a ast =>
    cases vs with
    | nil =>
      exfalso
      have := hr.length_eq
      simp at this
    | cons v vst =>
      have hne : L.size_ ≠ 0 := by
        rw [hsz]
        simp
      obtain ⟨nxt, hcompx, _, _, _, _⟩ := PopFront_rep hr hne
      rw [hcompx] at hcomp
      injection hcomp with hpair
      injection hpair with he1 he2
      subst he2
      exact hrB.freeRep (hdisj a (List.mem_cons_self a ast))

lemma Clear_frame {L other : SingleLinkedList} {h : Heap α}
    {as : List Nat} {vs : List α} {bs : List Nat} {ws : List α}
    (hw : h.WF) (hr : ListRep h L.head_next as vs)
    (hrB : ListRep h other.head_next bs ws)
    (hdisj : ∀ a ∈ bs, a ∉ as) :
    ∀ (st3 : SingleLinkedList) (h3 : Heap α),
      Clear L h = some (st3, h3) → ListRep h3 other.head_next bs ws := by
  intro st3 h3 hcomp
  obtain ⟨h2x, hcompx, _, _, hout, _⟩ := Clear_spec hw hr
  rw [hcompx] at hcomp
  injection hcomp with hpair
  injection hpair with he1 he2
  subst he2
  exact hrB.frame (fun a ha => hout a (hdisj a ha))

/-- C3: copy-constructing `L2` from `L` produces a list with the same
element sequence and size (`operator==` returns `true`), the two chains
share no node address (deep copy), `L`'s chain is intact, and any
subsequent `PushFront`, `PopFront` or `Clear` applied to either list
leaves the other list's chain (addresses and values) unchanged; the same
holds for copy assignment of `L` into a separately stored list `M`. -/
theorem claim_C3_deep_copy_independence {α : Type} [DecidableEq α]
    {h : Heap α} {L : SingleLinkedList} {as : List Nat} {vs : List α}
    (hw : h.WF) (hr : ListRep h L.head_next as vs)
    (hsz : L.size_ = as.length) :
    ∃ L2 h2 as2,
      copyFrom h L = some (L2, h2) ∧
      ListRep h2 L2.head_next as2 vs ∧
      L2.size_ = L.size_ ∧
      listEq h2 L L2 = some true ∧
      (∀ a ∈ as, a ∉ as2) ∧
      ListRep h2 L.head_next as vs ∧
      (∀ v, ListRep (L.PushFront h2 v).2 L2.head_next as2 vs) ∧
      (∀ (st3 : SingleLinkedList) (h3 : Heap α),
        PopFront L h2 = some (st3, h3) → ListRep h3 L2.head_next as2 vs) ∧
      (∀ (st3 : SingleLinkedList) (h3 : Heap α),
        Clear L h2 = some (st3, h3) → ListRep h3 L2.head_next as2 vs) ∧
      (∀ v, ListRep (L2.PushFront h2 v).2 L.head_next as vs) ∧
      (∀ (st3 : SingleLinkedList) (h3 : Heap α),
        PopFront L2 h2 = some (st3, h3) → ListRep h3 L.head_next as vs) ∧
      (∀ (st3 : SingleLinkedList) (h3 : Heap α),
        Clear L2 h2 = some (st3, h3) → ListRep h3 L.head_next as vs) ∧
      (∀ (M : SingleLinkedList) (as0 : List Nat) (vs0 : List α),
        ListRep h M.head_next as0 vs0 → (∀ a ∈ as0, a ∉ as) →
        ∃ M2 h5 asM, assign M h L false = some (M2, h5) ∧
          ListRep h5 M2.head_next asM vs ∧ M2.size_ = L.size_ ∧
          ListRep h5 L.head_next as vs ∧ (∀ a ∈ as, a ∉ asM)) := by
  obtain ⟨L2, h2, as2, hcomp, hrep, hszL2, hw2, hge, hmem, hrother, hlt,
    hf⟩ := copyFrom_rep hw hr
  have hszL2e : L2.size_ = L.size_ := by
    rw [hszL2, hsz, hr.length_eq]
  have hdisj : ∀ a ∈ as, a ∉ as2 := by
    intro a ha hmem2
    have h1 := hlt a ha
    have h2 := hge a hmem2
    omega
  have hdisj2 : ∀ a ∈ as2, a ∉ as := fun a ha hmem2 => hdisj _ hmem2 ha
  have htvL : traverseVals h2 h2.fresh L.head_next = some vs :=
    traverseVals_of_rep hrother _ (hrother.length_le_fresh hw2)
  have htvL2 : traverseVals h2 h2.fresh L2.head_next = some vs :=
    traverseVals_of_rep hrep _ (hrep.length_le_fresh hw2)
  have heqc : listEq h2 L L2 = some true := by
    show (match traverseVals h2 h2.fresh L.head_next,
        traverseVals h2 h2.fresh L2.head_next with
      | some v1, some v2 => some (stdEqual v1 v2)
      | _, _ => none) = some true
    rw [htvL, htvL2]
    show some (stdEqual vs vs) = some true
    rw [(stdEqual_iff vs vs).mpr rfl]
  have hszL : L.size_ = vs.length := by
    rw [hsz, hr.length_eq]
  have hszL2v : L2.size_ = vs.length := hszL2
  refine ⟨L2, h2, as2, hcomp, hrep, hszL2e, heqc, hdisj, hrother,
    ?_, ?_, ?_, ?_, ?_, ?_, ?_⟩
  · intro v
    rw [PushFront_eq]
    exact hrep.allocRep hw2 _
  · exact PopFront_frame hrother hsz hrep hdisj
  · exact Clear_frame hw2 hrother hrep hdisj2
  · intro v
    rw [PushFront_eq]
    exact hrother.allocRep hw2 _
  · exact PopFront_frame hrep (hszL2v.trans hrep.length_eq.symm) hrother
      hdisj2
  · exact Clear_frame hw2 hrep hrother hdisj
  · intro M as0 vs0 hrM hdisjM
    obtain ⟨M2, h5, asM, hcompA, hrepA, hszA, hw5, hrLA, hgeA⟩ :=
      assign_rep hw hrM hr hdisjM
    refine ⟨M2, h5, asM, hcompA, hrepA, ?_, hrLA, ?_⟩
    · rw [hszA, hsz, hr.length_eq]
    · intro a ha hmemA
      have h1 := hlt a ha
      have h2 := hgeA a hmemA
      omega

/-- Witness for C3: copying the one-element list `[7]` stored at address
`0` succeeds and compares equal to the original. -/
theorem claim_C3_witness :
    ∃ (L2 : SingleLinkedList) (h2 : Heap Int),
      copyFrom (Heap.mk (updMem (fun _ => none) 0 (some ⟨7, none⟩)) 1)
        (SingleLinkedList.mk (some 0) 1) = some (L2, h2) ∧
      listEq h2 (SingleLinkedList.mk (some 0) 1) L2 = some true := by
  have hw : (Heap.mk (updMem (fun _ => none) 0
      (some (⟨7, none⟩ : Node Int))) 1).WF := by
    intro a ha
    have ha2 : 1 ≤ a := ha
    show updMem (fun _ => none) 0 (some ⟨7, none⟩) a = none
    rw [@updMem_ne Int (fun _ => none) 0 a (some ⟨7, none⟩) (by omega)]
  have hr : ListRep (Heap.mk (updMem (fun _ => none) 0
        (some (⟨7, none⟩ : Node Int))) 1)
      (SingleLinkedList.mk (some 0) 1).head_next [0] [(7 : Int)] :=
    ListRep.cons rfl ListRep.nil
  obtain ⟨L2, h2, as2, hcomp, _, _, heq, _⟩ :=
    claim_C3_deep_copy_independence hw hr rfl
  exact ⟨L2, h2, hcomp, heq⟩

/-- C4: `InsertAfter(before_begin(), v)` is equivalent to `PushFront(v)`:
it succeeds and produces exactly the list state and heap that `PushFront`
produces, and the returned iterator refers to the newly allocated node,
which is the new first element and holds `v`. -/
theorem claim_C4_insert_at_before_begin_is_push_front {α : Type}
    (st : SingleLinkedList) (h : Heap α) (v : α) :
    InsertAfter st h st.before_begin v =
      some ((st.PushFront h v).1, (st.PushFront h v).2,
        Iter.node h.fresh) ∧
    (st.PushFront h v).1.head_next = some h.fresh ∧
    (st.PushFront h v).1.size_ = st.size_ + 1 ∧
    (st.PushFront h v).2.mem h.fresh = some ⟨v, st.head_next⟩ :=
  ⟨rfl, rfl, rfl, updMem_self _ _ _⟩

/-- C10: self-assignment (`l = l`, i.e. `this == &rhs`) is a no-op: the
`this != &rhs` guard makes `operator=` return with the list state and the
heap unchanged. -/
theorem claim_C10_self_assignment_noop {α : Type} (st : SingleLinkedList)
    (h : Heap α) : assign st h st true = some (st, h) := rfl

/-- C5: for a valid position whose referenced node has a successor,
`EraseAfter` destroys exactly that successor, relinks around it,
decrements `size_` by one, and returns an iterator to the node now
immediately after the position; when the position precedes the last
element the returned iterator equals `end()`.  First conjunct: the
position is `before_begin()` (the sentinel); second conjunct: the
position is a real node `p` with successor `b`. -/
theorem claim_C5_erase_after_successor {α : Type} :
    (∀ (st : SingleLinkedList) (h : Heap α) (b : Nat) (bs : List Nat)
      (y : α) (vs : List α),
      ListRep h st.head_next (b :: bs) (y :: vs) →
      st.size_ = bs.length + 1 →
      ∃ o2, EraseAfter st h st.before_begin =
          some (⟨o2, st.size_ - 1⟩, h.free b, iterOf o2) ∧
        ListRep (h.free b) o2 bs vs ∧
        (h.free b).mem b = none ∧
        (∀ a, a ≠ b → (h.free b).mem a = h.mem a) ∧
        st.size_ - 1 + 1 = st.size_ ∧
        (bs = [] →
          iterOf o2 = SingleLinkedList.endIter ⟨o2, st.size_ - 1⟩)) ∧
    (∀ (st : SingleLinkedList) (h : Heap α) (p b : Nat)
      (as1 as2 : List Nat) (vs1 vs2 : List α) (x y : α), h.WF →
      ListRep h st.head_next (as1 ++ p :: b :: as2)
        (vs1 ++ x :: y :: vs2) →
      as1.length = vs1.length →
      st.size_ = (as1 ++ p :: b :: as2).length →
      ∃ h2 o2, EraseAfter st h (Iter.node p) =
          some (⟨st.head_next, st.size_ - 1⟩, h2, iterOf o2) ∧
        ListRep h2 st.head_next (as1 ++ p :: as2) (vs1 ++ x :: vs2) ∧
        h2.mem b = none ∧
        (∀ a, a ≠ p → a ≠ b → h2.mem a = h.mem a) ∧
        h2.mem p = some ⟨x, o2⟩ ∧
        (as2 = [] → o2 = none) ∧
        (∀ c cs, as2 = c :: cs → o2 = some c) ∧
        st.size_ - 1 + 1 = st.size_ ∧
        (as2 = [] → iterOf o2 =
          SingleLinkedList.endIter ⟨st.head_next, st.size_ - 1⟩)) := by
  constructor
  · intro st h b bs y vs hr hsz
    obtain ⟨o2, hcomp, hrep, hnil, hcons, hmb, hmo, hfr⟩ :=
      EraseAfter_headPtr_rep hr
    refine ⟨o2, hcomp, hrep, hmb, hmo, by omega, ?_⟩
    intro hbs
    rw [hnil hbs]
    rfl
  · intro st h p b as1 as2 vs1 vs2 x y hw hr hlen hsz
    obtain ⟨h2, o2, hcomp, hrep, hnil, hcons, hw2, hfr, hmb, hmo, hmp⟩ :=
      EraseAfter_node_rep hw hr hlen
    have hpos : st.size_ - 1 + 1 = st.size_ := by
      rw [hsz]
      simp only [List.length_append, List.length_cons]
      omega
    refine ⟨h2, o2, hcomp, hrep, hmb, hmo, hmp, hnil, hcons, hpos, ?_⟩
    intro has2
    rw [hnil has2]
    rfl

/-- Witness for C5: on the two-element list `[1, 2]` (addresses `0, 1`),
erasing after the node at address `0` (which precedes the last element)
removes the last element and returns the end iterator. -/
theorem claim_C5_witness :
    ∃ h2 o2,
      EraseAfter
        (SingleLinkedList.mk (some 0) 2)
        (Heap.mk (updMem (updMem (fun _ => none) 0
          (some (⟨1, some 1⟩ : Node Int))) 1 (some ⟨2, none⟩)) 2)
        (Iter.node 0) =
        some (⟨some 0, 1⟩, h2, iterOf o2) ∧
      o2 = none := by
  have hw : (Heap.mk (updMem (updMem (fun _ => none) 0
      (some (⟨1, some 1⟩ : Node Int))) 1 (some ⟨2, none⟩)) 2).WF := by
    intro a ha
    have ha2 : 2 ≤ a := ha
    show updMem (updMem (fun _ => none) 0 (some ⟨1, some 1⟩)) 1
      (some ⟨2, none⟩) a = none
    rw [@updMem_ne Int (updMem (fun _ => none) 0 (some ⟨1, some 1⟩)) 1 a
      (some ⟨2, none⟩) (by omega)]
    rw [@updMem_ne Int (fun _ => none) 0 a (some ⟨1, some 1⟩) (by omega)]
  have hr : ListRep (Heap.mk (updMem (updMem (fun _ => none) 0
        (some (⟨1, some 1⟩ : Node Int))) 1 (some ⟨2, none⟩)) 2)
      (SingleLinkedList.mk (some 0) 2).head_next
      ([] ++ 0 :: 1 :: []) ([] ++ (1 : Int) :: 2 :: []) :=
    ListRep.cons rfl (ListRep.cons rfl ListRep.nil)
  obtain ⟨h2, o2, hcomp, _, _, _, _, hnil, _, _, _⟩ :=
    (@claim_C5_erase_after_successor Int).2
      (SingleLinkedList.mk (some 0) 2) _ 0 1 [] [] [] [] 1 2 hw hr rfl rfl
  exact ⟨h2, o2, hcomp, hnil rfl⟩

/-- C6: `operator==` returns `true` iff the two lists have the same
length and elementwise-equal values in order, and `operator!=` returns
its negation. -/
theorem claim_C6_equality_elementwise {α : Type} [DecidableEq α]
    {h : Heap α} {l1 l2 : SingleLinkedList} {as1 as2 : List Nat}
    {vs1 vs2 : List α} (hw : h.WF)
    (hr1 : ListRep h l1.head_next as1 vs1)
    (hr2 : ListRep h l2.head_next as2 vs2) :
    ∃ b, listEq h l1 l2 = some b ∧
      (b = true ↔ (vs1.length = vs2.length ∧
        ∀ i (hi1 : i < vs1.length) (hi2 : i < vs2.length),
          vs1.get ⟨i, hi1⟩ = vs2.get ⟨i, hi2⟩)) ∧
      listNe h l1 l2 = some (!b) := by
  have htv1 := traverseVals_of_rep hr1 h.fresh (hr1.length_le_fresh hw)
  have htv2 := traverseVals_of_rep hr2 h.fresh (hr2.length_le_fresh hw)
  have heq : listEq h l1 l2 = some (stdEqual vs1 vs2) := by
    show (match traverseVals h h.fresh l1.head_next,
        traverseVals h h.fresh l2.head_next with
      | some v1, some v2 => some (stdEqual v1 v2)
      | _, _ => none) = some (stdEqual vs1 vs2)
    rw [htv1, htv2]
  refine ⟨stdEqual vs1 vs2, heq, ?_, ?_⟩
  · rw [stdEqual_iff]
    exact list_eq_iff
  · show (listEq h l1 l2).map (fun b => !b) = some (!stdEqual vs1 vs2)
    rw [heq]
    rfl

/-- Witness for C6: two separately stored one-element lists `[7]`
compare equal. -/
theorem claim_C6_witness :
    ∃ b, listEq
        (Heap.mk (updMem (updMem (fun _ => none) 0
          (some (⟨7, none⟩ : Node Int))) 1 (some ⟨7, none⟩)) 2)
        (SingleLinkedList.mk (some 0) 1) (SingleLinkedList.mk (some 1) 1) =
        some b ∧ b = true := by
  have hw : (Heap.mk (updMem (updMem (fun _ => none) 0
      (some (⟨7, none⟩ : Node Int))) 1 (some ⟨7, none⟩)) 2).WF := by
    intro a ha
    have ha2 : 2 ≤ a := ha
    show updMem (updMem (fun _ => none) 0 (some ⟨7, none⟩)) 1
      (some ⟨7, none⟩) a = none
    rw [@updMem_ne Int (updMem (fun _ => none) 0 (some ⟨7, none⟩)) 1 a
      (some ⟨7, none⟩) (by omega)]
    rw [@updMem_ne Int (fun _ => none) 0 a (some ⟨7, none⟩) (by omega)]
  have hr1 : ListRep (Heap.mk (updMem (updMem (fun _ => none) 0
        (some (⟨7, none⟩ : Node Int))) 1 (some ⟨7, none⟩)) 2)
      (SingleLinkedList.mk (some 0) 1).head_next [0] [(7 : Int)] :=
    ListRep.cons rfl ListRep.nil
  have hr2 : ListRep (Heap.mk (updMem (updMem (fun _ => none) 0
        (some (⟨7, none⟩ : Node Int))) 1 (some ⟨7, none⟩)) 2)
      (SingleLinkedList.mk (some 1) 1).head_next [1] [(7 : Int)] :=
    ListRep.cons rfl ListRep.nil
  obtain ⟨b, heq, hiff, _⟩ := claim_C6_equality_elementwise hw hr1 hr2
  refine ⟨b, heq, hiff.mpr ⟨rfl, ?_⟩⟩
  intro i hi1 hi2
  cases i with
  | zero => rfl
  | succ n => exact absurd hi1 (by simp)

lemma lexComp_self {α : Type} [LinearOrder α] :
    ∀ vs : List α, lexComp vs vs = false := by
  intro vs
  induction vs with
  | nil => rfl
  | cons a as ih =>
    show lexComp (a :: as) (a :: as) = false
    simp only [lexComp]
    rw [if_neg (lt_irrefl a), if_neg (lt_irrefl a)]
    exact ih

/-- C7: `operator<` computes lexicographic comparison of the two element
sequences with length as the final tiebreak (`List.Lex (· < ·)`, in which
a strict prefix is less than any extension), `>`, `<=`, `>=` are the
stated combinations of `<`, a separately stored proper prefix compares
strictly less, and equal sequences are not less in either direction. -/
theorem claim_C7_lexicographic_ordering {α : Type} [LinearOrder α]
    {h : Heap α} {l1 l2 : SingleLinkedList} {as1 as2 : List Nat}
    {vs1 vs2 : List α} (hw : h.WF)
    (hr1 : ListRep h l1.head_next as1 vs1)
    (hr2 : ListRep h l2.head_next as2 vs2) :
    ∃ b12 b21,
      listLt h l1 l2 = some b12 ∧
      listLt h l2 l1 = some b21 ∧
      (b12 = true ↔ List.Lex (· < ·) vs1 vs2) ∧
      (b21 = true ↔ List.Lex (· < ·) vs2 vs1) ∧
      listGt h l1 l2 = some b21 ∧
      listLe h l1 l2 = some (!b21) ∧
      listGe h l1 l2 = some (!b12) ∧
      ((∃ t, t ≠ [] ∧ vs2 = vs1 ++ t) → b12 = true) ∧
      (vs1 = vs2 → b12 = false ∧ b21 = false) := by
  have htv1 := traverseVals_of_rep hr1 h.fresh (hr1.length_le_fresh hw)
  have htv2 := traverseVals_of_rep hr2 h.fresh (hr2.length_le_fresh hw)
  have hlt12 : listLt h l1 l2 = some (lexComp vs1 vs2) := by
    show (match traverseVals h h.fresh l1.head_next,
        traverseVals h h.fresh l2.head_next with
      | some v1, some v2 => some (lexComp v1 v2)
      | _, _ => none) = some (lexComp vs1 vs2)
    rw [htv1, htv2]
  have hlt21 : listLt h l2 l1 = some (lexComp vs2 vs1) := by
    show (match traverseVals h h.fresh l2.head_next,
        traverseVals h h.fresh l1.head_next with
      | some v1, some v2 => some (lexComp v1 v2)
      | _, _ => none) = some (lexComp vs2 vs1)
    rw [htv1, htv2]
  refine ⟨lexComp vs1 vs2, lexComp vs2 vs1, hlt12, hlt21,
    lexComp_iff vs1 vs2, lexComp_iff vs2 vs1, hlt21, ?_, ?_, ?_, ?_⟩
  · show (listLt h l2 l1).map (fun b => !b) = some (!lexComp vs2 vs1)
    rw [hlt21]
    rfl
  · show (listLt h l1 l2).map (fun b => !b) = some (!lexComp vs1 vs2)
    rw [hlt12]
    rfl
  · rintro ⟨t, ht, rfl⟩
    exact lexComp_self_append vs1 t ht
  · rintro rfl
    exact ⟨lexComp_self vs1, lexComp_self vs1⟩

/-- Witness for C7: `[1]` (a separately stored proper prefix of `[1, 2]`)
compares strictly less than `[1, 2]`, and `>=` accordingly returns
`false`. -/
theorem claim_C7_witness :
    listLt
      (Heap.mk (updMem (updMem (updMem (fun _ => none) 0
        (some (⟨1, some 1⟩ : Node Int))) 1 (some ⟨2, none⟩)) 2
        (some ⟨1, none⟩)) 3)
      (SingleLinkedList.mk (some 2) 1) (SingleLinkedList.mk (some 0) 2) =
      some true ∧
    listGe
      (Heap.mk (updMem (updMem (updMem (fun _ => none) 0
        (some (⟨1, some 1⟩ : Node Int))) 1 (some ⟨2, none⟩)) 2
        (some ⟨1, none⟩)) 3)
      (SingleLinkedList.mk (some 2) 1) (SingleLinkedList.mk (some 0) 2) =
      some false := by
  have hw : (Heap.mk (updMem (updMem (updMem (fun _ => none) 0
      (some (⟨1, some 1⟩ : Node Int))) 1 (some ⟨2, none⟩)) 2
      (some ⟨1, none⟩)) 3).WF := by
    intro a ha
    have ha2 : 3 ≤ a := ha
    show updMem (updMem (updMem (fun _ => none) 0 (some ⟨1, some 1⟩)) 1
      (some ⟨2, none⟩)) 2 (some ⟨1, none⟩) a = none
    rw [@updMem_ne Int (updMem (updMem (fun _ => none) 0
      (some ⟨1, some 1⟩)) 1 (some ⟨2, none⟩)) 2 a (some ⟨1, none⟩)
      (by omega)]
    rw [@updMem_ne Int (updMem (fun _ => none) 0 (some ⟨1, some 1⟩)) 1 a
      (some ⟨2, none⟩) (by omega)]
    rw [@updMem_ne Int (fun _ => none) 0 a (some ⟨1, some 1⟩) (by omega)]
  have hr1 : ListRep (Heap.mk (updMem (updMem (updMem (fun _ => none) 0
        (some (⟨1, some 1⟩ : Node Int))) 1 (some ⟨2, none⟩)) 2
        (some ⟨1, none⟩)) 3)
      (SingleLinkedList.mk (some 2) 1).head_next [2] [(1 : Int)] :=
    ListRep.cons rfl ListRep.nil
  have hr2 : ListRep (Heap.mk (updMem (updMem (updMem (fun _ => none) 0
        (some (⟨1, some 1⟩ : Node Int))) 1 (some ⟨2, none⟩)) 2
        (some ⟨1, none⟩)) 3)
      (SingleLinkedList.mk (some 0) 2).head_next [0, 1]
      [(1 : Int), 2] :=
    ListRep.cons rfl (ListRep.cons rfl ListRep.nil)
  obtain ⟨b12, b21, hlt12, hlt21, hiff12, hiff21, hgt, hle, hge, hpre,
    hself⟩ := claim_C7_lexicographic_ordering hw hr1 hr2
  have hb : b12 = true := hpre ⟨[2], by simp, rfl⟩
  subst hb
  exact ⟨hlt12, hge⟩

/-- C8: member `swap` (and the free `swap`, which calls it) exchanges
exactly the two list objects' head links and size counters and touches no
heap node, so afterwards the first list's element sequence and size are
the second's originals and vice versa, and both lists remain valid. -/
theorem claim_C8_swap_exchanges_state {α : Type} {h : Heap α}
    {l1 l2 : SingleLinkedList} {as1 as2 : List Nat} {vs1 vs2 : List α}
    (hw : h.WF)
    (hr1 : ListRep h l1.head_next as1 vs1)
    (hr2 : ListRep h l2.head_next as2 vs2)
    (hsz1 : l1.size_ = as1.length) (hsz2 : l2.size_ = as2.length) :
    (l1.swap l2).1.head_next = l2.head_next ∧
    (l1.swap l2).1.size_ = l2.size_ ∧
    (l1.swap l2).2.head_next = l1.head_next ∧
    (l1.swap l2).2.size_ = l1.size_ ∧
    swapFree l1 l2 = ((l1.swap l2).1, (l1.swap l2).2) ∧
    traverseVals h h.fresh (l1.swap l2).1.head_next = some vs2 ∧
    traverseVals h h.fresh (l1.swap l2).2.head_next = some vs1 ∧
    Valid (l1.swap l2).1 h ∧ Valid (l1.swap l2).2 h :=
  ⟨rfl, rfl, rfl, rfl, rfl,
    traverseVals_of_rep hr2 h.fresh (hr2.length_le_fresh hw),
    traverseVals_of_rep hr1 h.fresh (hr1.length_le_fresh hw),
    ⟨as2, vs2, hr2, hsz2⟩, ⟨as1, vs1, hr1, hsz1⟩⟩

/-- Witness for C8: swapping `[5]` with the empty list exchanges the two
iteration sequences. -/
theorem claim_C8_witness :
    traverseVals
      (Heap.mk (updMem (fun _ => none) 0 (some (⟨5, none⟩ : Node Int))) 1)
      1
      ((SingleLinkedList.mk (some 0) 1).swap
        (SingleLinkedList.mk none 0)).1.head_next = some [] ∧
    traverseVals
      (Heap.mk (updMem (fun _ => none) 0 (some (⟨5, none⟩ : Node Int))) 1)
      1
      ((SingleLinkedList.mk (some 0) 1).swap
        (SingleLinkedList.mk none 0)).2.head_next = some [5] := by
  have hw : (Heap.mk (updMem (fun _ => none) 0
      (some (⟨5, none⟩ : Node Int))) 1).WF := by
    intro a ha
    have ha2 : 1 ≤ a := ha
    show updMem (fun _ => none) 0 (some ⟨5, none⟩) a = none
    rw [@updMem_ne Int (fun _ => none) 0 a (some ⟨5, none⟩) (by omega)]
  have hr1 : ListRep (Heap.mk (updMem (fun _ => none) 0
        (some (⟨5, none⟩ : Node Int))) 1)
      (SingleLinkedList.mk (some 0) 1).head_next [0] [(5 : Int)] :=
    ListRep.cons rfl ListRep.nil
  have hr2 : ListRep (Heap.mk (updMem (fun _ => none) 0
        (some (⟨5, none⟩ : Node Int))) 1)
      (SingleLinkedList.mk none 0).head_next [] [] := ListRep.nil
  obtain ⟨_, _, _, _, _, ht1, ht2, _, _⟩ :=
    claim_C8_swap_exchanges_state hw hr1 hr2 rfl rfl
  exact ⟨ht1, ht2⟩

/-- C9: `PushFront(v)` followed by `PopFront()` succeeds and restores the
original list object (head link and size) and the original heap contents;
in between, the first element of the list is the newly allocated node
holding exactly `v`. -/
theorem claim_C9_push_then_pop_restores {α : Type}
    {st : SingleLinkedList} {h : Heap α} {as : List Nat} {vs : List α}
    (hw : h.WF) (hr : ListRep h st.head_next as vs) (v : α) :
    ∃ h2, PopFront (st.PushFront h v).1 (st.PushFront h v).2 =
        some (st, h2) ∧
      h2.mem = h.mem ∧
      h2.fresh = h.fresh + 1 ∧
      ListRep h2 st.head_next as vs ∧
      (st.PushFront h v).1.head_next = some h.fresh ∧
      (st.PushFront h v).2.mem h.fresh = some ⟨v, st.head_next⟩ ∧
      (st.PushFront h v).1.size_ - 1 = st.size_ := by
  have hmm : (h.alloc ⟨v, st.head_next⟩).1.mem h.fresh =
      some ⟨v, st.head_next⟩ := Heap.alloc_mem_self h _
  have hcomp : PopFront (st.PushFront h v).1 (st.PushFront h v).2 =
      some (⟨st.head_next, st.size_ + 1 - 1⟩,
        (st.PushFront h v).2.free h.fresh) := by
    show PopFront ⟨some h.fresh, st.size_ + 1⟩
      (h.alloc ⟨v, st.head_next⟩).1 = _
    simp [PopFront, hmm]
    rfl
  have hsteq : (⟨st.head_next, st.size_ + 1 - 1⟩ : SingleLinkedList) =
      st := rfl
  have hmemeq : ((st.PushFront h v).2.free h.fresh).mem = h.mem := by
    funext x
    by_cases hx : x = h.fresh
    · rw [hx, Heap.free_mem_self]
      exact (hw h.fresh (le_refl h.fresh)).symm
    · rw [Heap.free_mem_ne _ hx]
      exact Heap.alloc_mem_ne h _ hx
  refine ⟨(st.PushFront h v).2.free h.fresh, ?_, hmemeq, rfl, ?_, rfl,
    hmm, rfl⟩
  · rw [hcomp, hsteq]
  · exact hr.frame (fun a _ => by rw [hmemeq])

/-- Witness for C9: pushing `42` on the empty list over the empty heap
and popping restores the empty list. -/
theorem claim_C9_witness :
    ∃ h2, PopFront
        ((SingleLinkedList.mk none 0).PushFront (Heap.emptyHeap Int) 42).1
        ((SingleLinkedList.mk none 0).PushFront (Heap.emptyHeap Int) 42).2 =
      some (SingleLinkedList.mk none 0, h2) := by
  have hr : ListRep (Heap.emptyHeap Int)
      (SingleLinkedList.mk none 0).head_next [] [] := ListRep.nil
  obtain ⟨h2, hcomp, _⟩ :=
    claim_C9_push_then_pop_restores (fun _ _ => rfl) hr 42
  exact ⟨h2, hcomp⟩

end SLL
